import Mathlib

/-!
Verification of the negacyclic NTT core (`seal/util/smallntt.cpp`).

The development shallowly embeds the source file: machine `uint64_t`
arithmetic becomes `Nat` arithmetic reduced modulo `2 ^ 64` exactly where the
machine wraps, buffers become functions `Nat → Nat` updated in place, and the
`for` loops become structural recursions whose fuel mirrors the loop bounds.
Routines that live in other translation units of the repository
(`uintarith`, `uintarithsmallmod`, `numth`, `uintcore`) are modelled from the
specification and are marked as such in their doc comments.
-/

namespace SealNTT

/-! ## 64-bit machine arithmetic -/

/-- Truncation to a 64-bit word: the value of a `uint64_t`. -/
def w64 (x : Nat) : Nat := x % 2 ^ 64

/-- Wrapping 64-bit addition, as performed on `uint64_t` operands. -/
def add64 (a b : Nat) : Nat := (a + b) % 2 ^ 64

/-- Wrapping 64-bit subtraction `a - b` of `uint64_t` operands
    (two's complement wraparound). -/
def sub64 (a b : Nat) : Nat := (a + (2 ^ 64 - b % 2 ^ 64)) % 2 ^ 64

/-- Modelled from the spec: `multiply_uint64_hw64` (in `uintarith.h`, not part
    of the sources) returns the high 64 bits of the 128-bit product. -/
def multiply_uint64_hw64 (a b : Nat) : Nat := a * b / 2 ^ 64

/-- The branch-free conditional subtraction
    `x - (c & static_cast<uint64_t>(-static_cast<int64_t>(x >= c)))`
    used by both butterflies: the mask is all ones exactly when `c ≤ x`. -/
def condSub (x c : Nat) : Nat :=
  sub64 x (c &&& (if c ≤ x then 2 ^ 64 - 1 else 0))

/-- The Harvey–Shoup modular multiply-reduce used in every butterfly:
    `Q = multiply_uint64_hw64(Wprime, Y); W * Y - Q * modulus` with all
    operations wrapping 64-bit arithmetic. -/
def harveyMul (q W Wp Y : Nat) : Nat :=
  sub64 (w64 (W * Y)) (w64 (multiply_uint64_hw64 Wp Y * q))

/-! ## Bit reversal -/

/-- Modelled from the spec: `reverse_bits(x, k)` (in `uintcore.h`, not part of
    the sources) reverses the low `k` bits of `x`. -/
def reverseBits : Nat → Nat → Nat
  | _, 0 => 0
  | x, k + 1 => x % 2 * 2 ^ k + reverseBits (x / 2) k

/-! ## Arithmetic collaborators modelled from the spec -/

/-- Modelled from the spec: `multiply_uint_uint_mod(a, b, modulus)` (in
    `uintarithsmallmod.h`, not part of the sources) returns `a * b mod q`. -/
def multiply_uint_uint_mod (a b q : Nat) : Nat := a * b % q

/-- Modelled from the spec: `div2_uint_mod(x, modulus)` (in
    `uintarithsmallmod.h`, not part of the sources) halves modulo `q`:
    `x / 2` if `x` is even, else `(x + q) / 2`. -/
def div2_uint_mod (x q : Nat) : Nat :=
  if x % 2 = 0 then x / 2 else (x + q) / 2

/-- Modelled from the spec: the low quotient word of
    `divide_uint128_uint64_inplace` applied to the little-endian dividend
    `(0, hi)`, that is the low 64 bits of `⌊hi · 2^64 / q⌋`. -/
def divide_uint128_uint64_lo (hi q : Nat) : Nat := hi * 2 ^ 64 / q % 2 ^ 64

/-- Modelled from the spec: `try_invert_uint_mod(x, modulus)` (in
    `uintarithsmallmod.cpp`, not part of the sources) returns the inverse of
    `x` modulo `q` in `[0, q)` when it exists.  The model returns the least
    residue `y < q` with `x * y ≡ 1 (mod q)`; when `x` is invertible this
    residue is unique, so the model agrees with the xgcd implementation. -/
def try_invert_uint_mod (x q : Nat) : Option Nat :=
  (List.range q).find? (fun y => x * y % q == 1)

/-- Primitivity test: `psi` is a primitive `m`-th root of unity modulo `q`. -/
def primitiveRootCheck (psi m q : Nat) : Bool :=
  psi ^ m % q == 1 && decide (∀ j, j < m → 0 < j → psi ^ j % q ≠ 1)

/-- Modelled from the spec: `try_minimal_primitive_root(2n, modulus)` (in
    `numth.cpp`, not part of the sources) returns the minimal primitive
    `2n`-th root of unity modulo `q`, or fails.  The model scans residues in
    increasing order, so a returned root is minimal. -/
def try_minimal_primitive_root (m q : Nat) : Option Nat :=
  (List.range q).find? (fun psi => primitiveRootCheck psi m q)

/-! ## The table object -/

/-- The state of a `SmallNTTTables` object.  Released buffers are modelled by
    the empty list, exactly matching the state produced by `reset()`. -/
structure SmallNTTTables where
  is_initialized : Bool
  modulus : Nat
  root : Nat
  coeff_count_power : Nat
  coeff_count : Nat
  root_powers : List Nat
  scaled_root_powers : List Nat
  inv_root_powers : List Nat
  scaled_inv_root_powers : List Nat
  inv_root_powers_div_two : List Nat
  scaled_inv_root_powers_div_two : List Nat
  inv_degree_modulo : Nat
deriving DecidableEq

/-- The table state established by `SmallNTTTables::reset()`: flag cleared,
    modulus and root zeroed, all six buffers released, scalars zeroed. -/
def resetTables : SmallNTTTables :=
  { is_initialized := false
    modulus := 0
    root := 0
    coeff_count_power := 0
    coeff_count := 0
    root_powers := []
    scaled_root_powers := []
    inv_root_powers := []
    scaled_inv_root_powers := []
    inv_root_powers_div_two := []
    scaled_inv_root_powers_div_two := []
    inv_degree_modulo := 0 }

/-- One step of the pointer-chaining loop of
    `ntt_powers_of_primitive_root`: the state is the buffer together with the
    index of the slot the `destination` pointer currently designates; each
    iteration writes `destination[cur] * root mod q` at the bit-reversed slot
    of `i` and moves the pointer there. -/
def nttPowersStep (q root k : Nat) : Nat → Nat → ((Nat → Nat) × Nat) → ((Nat → Nat) × Nat)
  | _, 0, s => s
  | i, c + 1, s =>
      nttPowersStep q root k (i + 1) c
        (Function.update s.1 (reverseBits i k) (multiply_uint_uint_mod (s.1 s.2) root q),
          reverseBits i k)

/-- `SmallNTTTables::ntt_powers_of_primitive_root` as a buffer: slot `0` is
    set to `1`, then the loop runs for `i = 1 … n-1`.  The freshly allocated
    buffer contents are modelled as zeros. -/
def nttPowersFun (q root k : Nat) : Nat → Nat :=
  (nttPowersStep q root k 1 (2 ^ k - 1) (Function.update (fun _ => 0) 0 1, 0)).1

/-- The `root_powers`-style table as a list of `n` words. -/
def ntt_powers_of_primitive_root (q root k : Nat) : List Nat :=
  (List.range (2 ^ k)).map (nttPowersFun q root k)

/-- `SmallNTTTables::ntt_scale_powers_of_primitive_root`: every entry is the
    low quotient word of the 128-by-64 division of `(0, input[i])` by `q`. -/
def ntt_scale_powers_of_primitive_root (q : Nat) (l : List Nat) : List Nat :=
  l.map (fun w => divide_uint128_uint64_lo w q)

/-- The sequence written by the reordering cursor of
    `SmallNTTTables::initialize` for the stages `m = 2^(s-1), …, 1`: for each
    `m` in decreasing order the slice `l[m .. 2m)` is appended. -/
def seqSlices (l : List Nat) : Nat → List Nat
  | 0 => []
  | s + 1 => (List.range (2 ^ s)).map (fun i => l.getD (2 ^ s + i) 0) ++ seqSlices l s

/-- The reordered inverse-root table: entry `0` is never written by the
    cursor (the source leaves it as allocator junk, modelled as `0`), entries
    `1 …` are the concatenated slices. -/
def reorder_inv_powers (l : List Nat) (k : Nat) : List Nat :=
  0 :: seqSlices l k

/-- `SmallNTTTables::initialize`.  The source populates the tables in place
    and calls `reset()` on every failure path before returning, so a failed
    build leaves exactly `resetTables`; this pure model returns the fully
    populated record on the success path and `resetTables` otherwise.  The `n`
    invertibility check is performed by the source after populating the
    buffers, but on failure those buffers are released again, so the result
    agrees with checking first. -/
def buildTable (coeff_count_power modulus : Nat) : SmallNTTTables :=
  let n := 2 ^ coeff_count_power
  match try_minimal_primitive_root (2 * n) modulus with
  | none => resetTables
  | some root =>
    match try_invert_uint_mod root modulus with
    | none => resetTables
    | some inverse_root =>
      match try_invert_uint_mod n modulus with
      | none => resetTables
      | some inv_degree =>
        let root_powers := ntt_powers_of_primitive_root modulus root coeff_count_power
        let inv_raw := ntt_powers_of_primitive_root modulus inverse_root coeff_count_power
        let inv_raw_div_two := inv_raw.map (fun x => div2_uint_mod x modulus)
        { is_initialized := true
          modulus := modulus
          root := root
          coeff_count_power := coeff_count_power
          coeff_count := n
          root_powers := root_powers
          scaled_root_powers := ntt_scale_powers_of_primitive_root modulus root_powers
          inv_root_powers := reorder_inv_powers inv_raw coeff_count_power
          scaled_inv_root_powers :=
            reorder_inv_powers (ntt_scale_powers_of_primitive_root modulus inv_raw)
              coeff_count_power
          inv_root_powers_div_two := inv_raw_div_two
          scaled_inv_root_powers_div_two :=
            ntt_scale_powers_of_primitive_root modulus inv_raw_div_two
          inv_degree_modulo := inv_degree }

/-- Modelled from the spec: the accessors are O(1) indexed reads. -/
def SmallNTTTables.get_from_root_powers (t : SmallNTTTables) (i : Nat) : Nat :=
  t.root_powers.getD i 0

/-- Modelled from the spec: the accessors are O(1) indexed reads. -/
def SmallNTTTables.get_from_scaled_root_powers (t : SmallNTTTables) (i : Nat) : Nat :=
  t.scaled_root_powers.getD i 0

/-- Modelled from the spec: the accessors are O(1) indexed reads. -/
def SmallNTTTables.get_from_inv_root_powers (t : SmallNTTTables) (i : Nat) : Nat :=
  t.inv_root_powers.getD i 0

/-- Modelled from the spec: the accessors are O(1) indexed reads. -/
def SmallNTTTables.get_from_scaled_inv_root_powers (t : SmallNTTTables) (i : Nat) : Nat :=
  t.scaled_inv_root_powers.getD i 0

/-! ## The butterfly passes -/

/-- One in-place butterfly: positions `j` and `j + t` are overwritten with
    `F`/`G` of their previous contents; all reads happen before the writes,
    exactly as in the pointer code. -/
def bfStep (F G : Nat → Nat → Nat) (t j : Nat) (v : Nat → Nat) : Nat → Nat :=
  Function.update (Function.update v j (F (v j) (v (j + t)))) (j + t)
    (G (v j) (v (j + t)))

/-- The plain inner loop: `cnt` butterflies at consecutive positions starting
    at `j`. -/
def bfLoop (F G : Nat → Nat → Nat) (t : Nat) : Nat → Nat → (Nat → Nat) → (Nat → Nat)
  | _, 0, v => v
  | j, c + 1, v => bfLoop F G t (j + 1) c (bfStep F G t j v)

/-- The fourfold-unrolled inner loop (`j += 4` with four butterfly bodies);
    the iteration count `⌈t/4⌉` mirrors the `j < j2` guard. -/
def bfLoop4 (F G : Nat → Nat → Nat) (t : Nat) : Nat → Nat → (Nat → Nat) → (Nat → Nat)
  | _, 0, v => v
  | j, c + 1, v =>
      bfLoop4 F G t (j + 4) c
        (bfStep F G t (j + 3) (bfStep F G t (j + 2) (bfStep F G t (j + 1) (bfStep F G t j v))))

/-- The outer block loop shared by both passes: block `c` starts at offset
    `j1`, uses root index `r`, and advances `j1` by the block span. -/
def blocksLoop (inner : Nat → Nat → (Nat → Nat) → (Nat → Nat)) (span : Nat) :
    Nat → Nat → Nat → (Nat → Nat) → (Nat → Nat)
  | _, _, 0, v => v
  | r, j1, c + 1, v => blocksLoop inner span (r + 1) (j1 + span) c (inner r j1 v)

/-- The `X` output of the forward Harvey butterfly: `tx + Q` where `tx` is the
    conditionally reduced left input and `Q` the Shoup product. -/
def fwdF (q W Wp : Nat) (x y : Nat) : Nat :=
  add64 (condSub x (2 * q)) (harveyMul q W Wp y)

/-- The `Y` output of the forward Harvey butterfly:
    `tx + two_times_modulus - Q`. -/
def fwdG (q W Wp : Nat) (x y : Nat) : Nat :=
  sub64 (add64 (condSub x (2 * q)) (2 * q)) (harveyMul q W Wp y)

/-- Forward inner loop with the source's `t >= 4` unrolling selection. -/
def fwdInner (q W Wp t j1 : Nat) (v : Nat → Nat) : Nat → Nat :=
  if 4 ≤ t then bfLoop4 (fwdF q W Wp) (fwdG q W Wp) t j1 ((t + 3) / 4) v
  else bfLoop (fwdF q W Wp) (fwdG q W Wp) t j1 t v

/-- One forward stage: `m` blocks of span `2t`, block `i` using root index
    `m + i`. -/
def fwdStage (q : Nat) (W Wp : Nat → Nat) (m t : Nat) (v : Nat → Nat) : Nat → Nat :=
  blocksLoop (fun r j1 => fwdInner q (W r) (Wp r) t j1) (2 * t) m 0 m v

/-- The outer `for (m = 1; m < n; m <<= 1)` loop of the forward pass, with
    fuel equal to the number of remaining stages. -/
def fwdLoop (q : Nat) (W Wp : Nat → Nat) : Nat → Nat → Nat → (Nat → Nat) → (Nat → Nat)
  | 0, _, _, v => v
  | f + 1, m, t, v => fwdLoop q W Wp f (2 * m) (t / 2) (fwdStage q W Wp m t v)

/-- `ntt_negacyclic_harvey_lazy`: in-place forward negacyclic NTT. -/
def ntt_negacyclic_harvey_lazy (tables : SmallNTTTables) (operand : Nat → Nat) : Nat → Nat :=
  fwdLoop tables.modulus tables.get_from_root_powers tables.get_from_scaled_root_powers
    tables.coeff_count_power 1 (2 ^ tables.coeff_count_power / 2) operand

/-- The `X` output of the inverse butterfly: `tx = X + Y` conditionally
    reduced below `2q`. -/
def invF (q : Nat) (x y : Nat) : Nat :=
  condSub (add64 x y) (2 * q)

/-- The `Y` output of the inverse butterfly: the Shoup product of the root
    with `ty = X + two_times_modulus - Y`. -/
def invG (q W Wp : Nat) (x y : Nat) : Nat :=
  harveyMul q W Wp (sub64 (add64 x (2 * q)) y)

/-- Inverse inner loop with the source's `t >= 4` unrolling selection. -/
def invInner (q W Wp t j1 : Nat) (v : Nat → Nat) : Nat → Nat :=
  if 4 ≤ t then bfLoop4 (invF q) (invG q W Wp) t j1 ((t + 3) / 4) v
  else bfLoop (invF q) (invG q W Wp) t j1 t v

/-- One inverse stage: `m` blocks of span `2t`, block `i` reading the
    reordered inverse-root table at the running cursor `c + i`. -/
def invStage (q : Nat) (W Wp : Nat → Nat) (c m t : Nat) (v : Nat → Nat) : Nat → Nat :=
  blocksLoop (fun r j1 => invInner q (W r) (Wp r) t j1) (2 * t) c 0 m v

/-- The outer `for (m = n >> 1; m > 1; m >>= 1)` loop of the inverse pass;
    the result carries the final value of `root_index`. -/
def invLoop (q : Nat) (W Wp : Nat → Nat) : Nat → Nat → Nat → Nat → (Nat → Nat) → ((Nat → Nat) × Nat)
  | 0, _, _, c, v => (v, c)
  | f + 1, m, t, c, v => invLoop q W Wp f (m / 2) (2 * t) (c + m) (invStage q W Wp c m t v)

/-- The `X` output of the merged final stage: Shoup product of `n⁻¹` with the
    conditionally reduced `tx = X + Y`. -/
def invFinalF (q iN iNp : Nat) (x y : Nat) : Nat :=
  harveyMul q iN iNp (condSub (add64 x y) (2 * q))

/-- The `Y` output of the merged final stage: Shoup product of `n⁻¹·W` with
    `ty = X + two_times_modulus - Y`. -/
def invFinalG (q iNW iNWp : Nat) (x y : Nat) : Nat :=
  harveyMul q iNW iNWp (sub64 (add64 x (2 * q)) y)

/-- `inverse_ntt_negacyclic_harvey_lazy`: in-place inverse negacyclic NTT
    with the `n⁻¹` normalization merged into the last stage. -/
def inverse_ntt_negacyclic_harvey_lazy (tables : SmallNTTTables) (operand : Nat → Nat) :
    Nat → Nat :=
  let q := tables.modulus
  let n := 2 ^ tables.coeff_count_power
  let st := invLoop q tables.get_from_inv_root_powers tables.get_from_scaled_inv_root_powers
    (tables.coeff_count_power - 1) (n / 2) 1 1 operand
  let inv_N := tables.inv_degree_modulo
  let W := tables.get_from_inv_root_powers st.2
  let inv_N_W := multiply_uint_uint_mod inv_N W q
  let inv_Nprime := divide_uint128_uint64_lo inv_N q
  let inv_N_Wprime := divide_uint128_uint64_lo inv_N_W q
  bfLoop (invFinalF q inv_N inv_Nprime) (invFinalG q inv_N_W inv_N_Wprime) (n / 2) 0 (n - n / 2)
    st.1

/-! ## Reference (never-unrolled) passes, following the spec's description of
    the non-unrolled inner loops -/

/-- The forward inner loop as the spec describes it without the fourfold
    unrolling: one butterfly per `j`. -/
def fwdInnerRef (q W Wp t j1 : Nat) (v : Nat → Nat) : Nat → Nat :=
  bfLoop (fwdF q W Wp) (fwdG q W Wp) t j1 t v

/-- Forward stage built from the non-unrolled inner loop. -/
def fwdStageRef (q : Nat) (W Wp : Nat → Nat) (m t : Nat) (v : Nat → Nat) : Nat → Nat :=
  blocksLoop (fun r j1 => fwdInnerRef q (W r) (Wp r) t j1) (2 * t) m 0 m v

/-- Forward outer loop built from the non-unrolled inner loop. -/
def fwdLoopRef (q : Nat) (W Wp : Nat → Nat) : Nat → Nat → Nat → (Nat → Nat) → (Nat → Nat)
  | 0, _, _, v => v
  | f + 1, m, t, v => fwdLoopRef q W Wp f (2 * m) (t / 2) (fwdStageRef q W Wp m t v)

/-- The forward pass with every inner loop in non-unrolled form. -/
def ntt_negacyclic_harvey_lazy_ref (tables : SmallNTTTables) (operand : Nat → Nat) :
    Nat → Nat :=
  fwdLoopRef tables.modulus tables.get_from_root_powers tables.get_from_scaled_root_powers
    tables.coeff_count_power 1 (2 ^ tables.coeff_count_power / 2) operand

/-- The inverse inner loop without the fourfold unrolling. -/
def invInnerRef (q W Wp t j1 : Nat) (v : Nat → Nat) : Nat → Nat :=
  bfLoop (invF q) (invG q W Wp) t j1 t v

/-- Inverse stage built from the non-unrolled inner loop. -/
def invStageRef (q : Nat) (W Wp : Nat → Nat) (c m t : Nat) (v : Nat → Nat) : Nat → Nat :=
  blocksLoop (fun r j1 => invInnerRef q (W r) (Wp r) t j1) (2 * t) c 0 m v

/-- Inverse outer loop built from the non-unrolled inner loop. -/
def invLoopRef (q : Nat) (W Wp : Nat → Nat) :
    Nat → Nat → Nat → Nat → (Nat → Nat) → ((Nat → Nat) × Nat)
  | 0, _, _, c, v => (v, c)
  | f + 1, m, t, c, v => invLoopRef q W Wp f (m / 2) (2 * t) (c + m) (invStageRef q W Wp c m t v)

/-- The inverse pass with every inner loop in non-unrolled form. -/
def inverse_ntt_negacyclic_harvey_lazy_ref (tables : SmallNTTTables) (operand : Nat → Nat) :
    Nat → Nat :=
  let q := tables.modulus
  let n := 2 ^ tables.coeff_count_power
  let st := invLoopRef q tables.get_from_inv_root_powers tables.get_from_scaled_inv_root_powers
    (tables.coeff_count_power - 1) (n / 2) 1 1 operand
  let inv_N := tables.inv_degree_modulo
  let W := tables.get_from_inv_root_powers st.2
  let inv_N_W := multiply_uint_uint_mod inv_N W q
  let inv_Nprime := divide_uint128_uint64_lo inv_N q
  let inv_N_Wprime := divide_uint128_uint64_lo inv_N_W q
  bfLoop (invFinalF q inv_N inv_Nprime) (invFinalG q inv_N_W inv_N_Wprime) (n / 2) 0 (n - n / 2)
    st.1

/-! ## Specification-side notions -/

/-- The entrywise reduction of a buffer into `[0, 2q)` interposed between the
    forward and inverse passes by the round-trip law of the spec. -/
def reduce2q (q : Nat) (v : Nat → Nat) : Nat → Nat :=
  fun p => if 2 * q ≤ v p then v p - 2 * q else v p

/-- Evaluation of the polynomial with coefficient buffer `a` (degree `< n`)
    at a point of `ZMod q`. -/
def polyEval (q n : Nat) (a : Nat → Nat) (x : ZMod q) : ZMod q :=
  ∑ i ∈ Finset.range n, (a i : ZMod q) * x ^ i

/-- The mathematical inverse negacyclic NTT (before the `n⁻¹` scaling): the
    sum `Σ_j A[j] · ξ^((2·bitrev_k(j)+1)·i)` where `ξ` is the inverse
    primitive root. -/
def invNttSum (q n k : Nat) (A : Nat → Nat) (xi : ZMod q) : Nat → ZMod q :=
  fun i => ∑ j ∈ Finset.range n, (A j : ZMod q) * xi ^ ((2 * reverseBits j k + 1) * i)

/-- The stage invariant of the forward pass: after the stages with
    `m = 1, …, 2^(s-1)`, block `b` of length `2^e` holds at offset `o` the
    partial transform of the coefficients with stride `2^e`. -/
def fwdCong (q : Nat) (z : ZMod q) (a : Nat → Nat) (s e : Nat) (v : Nat → Nat) : Prop :=
  ∀ b, b < 2 ^ s → ∀ o, o < 2 ^ e →
    ((v (b * 2 ^ e + o) : ZMod q) =
      ∑ r ∈ Finset.range (2 ^ s),
        (a (o + r * 2 ^ e) : ZMod q) * z ^ ((2 * reverseBits b s + 1) * (2 ^ e * r)))

/-- The stage invariant of the inverse pass: after the stages with
    `m = n/2, …, 2^s`, block `b` of length `2^e` holds at offset `o` a
    partially merged inverse transform of the input values of that block. -/
def invCong (q : Nat) (x : ZMod q) (A : Nat → Nat) (s e : Nat) (v : Nat → Nat) : Prop :=
  ∀ b, b < 2 ^ s → ∀ o, o < 2 ^ e →
    ((v (b * 2 ^ e + o) : ZMod q) =
      ∑ j ∈ Finset.range (2 ^ e),
        (A (b * 2 ^ e + j) : ZMod q) *
          x ^ ((2 * (reverseBits b s + 2 ^ s * reverseBits j e) + 1) * o))

/-- All entries of the buffer below position `N` are below `bound`. -/
def inRange (N bound : Nat) (v : Nat → Nat) : Prop :=
  ∀ p, p < N → v p < bound


/-! ## Lemmas: 64-bit arithmetic -/

theorem w64_eq_of_lt {x : Nat} (h : x < 2 ^ 64) : w64 x = x :=
  Nat.mod_eq_of_lt h

theorem add64_eq {a b : Nat} (h : a + b < 2 ^ 64) : add64 a b = a + b :=
  Nat.mod_eq_of_lt h

theorem sub64_eq {a b : Nat} (hba : b ≤ a) (hlt : a - b < 2 ^ 64) :
    sub64 (w64 a) (w64 b) = a - b := by
  unfold sub64 w64
  omega

theorem sub64_eq' {a b : Nat} (hba : b ≤ a) (ha : a < 2 ^ 64) :
    sub64 a b = a - b := by
  have h1 : w64 a = a := w64_eq_of_lt ha
  have h2 : w64 b = b := w64_eq_of_lt (lt_of_le_of_lt hba ha)
  have := sub64_eq hba (by omega)
  rw [h1, h2] at this
  exact this

theorem condSub_spec {x c : Nat} (hx : x < 2 ^ 64) (hc : c < 2 ^ 64) :
    condSub x c = if c ≤ x then x - c else x := by
  unfold condSub
  by_cases h : c ≤ x
  · simp only [h, if_true]
    have hm : c &&& (2 ^ 64 - 1) = c := by
      rw [Nat.and_pow_two_sub_one_eq_mod]
      exact Nat.mod_eq_of_lt hc
    rw [hm, sub64_eq' h hx]
  · simp only [h, if_false]
    have hm : c &&& 0 = 0 := Nat.and_zero c
    rw [hm, sub64_eq' (Nat.zero_le x) hx]
    exact Nat.sub_zero x

/-- The Harvey lemma: with `W < q < 2^62`, `Wp = ⌊W·2^64/q⌋` and `Y ≤ 2^64`,
    the wrapped 64-bit computation `W·Y - hw64(Wp·Y)·q` equals the exact
    natural number `W·Y - ⌊Wp·Y/2^64⌋·q`, which lies in `[0, 2q)` and is
    congruent to `W·Y` modulo `q`. -/
theorem harveyMul_spec {q W Wp Y : Nat} (hq : 0 < q) (hq62 : q < 2 ^ 62)
    (hW : W < q) (hWp : Wp = W * 2 ^ 64 / q) (hY : Y ≤ 2 ^ 64) :
    harveyMul q W Wp Y < 2 * q ∧ harveyMul q W Wp Y % q = W * Y % q := by
  set H := Wp * Y / 2 ^ 64 with hH
  set r := W * 2 ^ 64 % q with hr
  set s := Wp * Y % 2 ^ 64 with hs
  have e1 : q * Wp + r = W * 2 ^ 64 := by rw [hWp, hr]; exact Nat.div_add_mod _ _
  have e2 : 2 ^ 64 * H + s = Wp * Y := by rw [hH, hs]; exact Nat.div_add_mod _ _
  have hrq : r < q := Nat.mod_lt _ hq
  have hsB : s < 2 ^ 64 := Nat.mod_lt _ (by norm_num)
  have key : W * Y * 2 ^ 64 = H * q * 2 ^ 64 + (s * q + r * Y) := by
    calc W * Y * 2 ^ 64 = (q * Wp + r) * Y := by rw [e1]; ring
      _ = q * (Wp * Y) + r * Y := by ring
      _ = q * (2 ^ 64 * H + s) + r * Y := by rw [e2]
      _ = H * q * 2 ^ 64 + (s * q + r * Y) := by ring
  have hHq : H * q ≤ W * Y := by
    have h1 : H * q * 2 ^ 64 ≤ W * Y * 2 ^ 64 := by
      rw [key]; exact Nat.le_add_right _ _
    exact Nat.le_of_mul_le_mul_right h1 (by norm_num)
  have hbound : W * Y - H * q < 2 * q := by
    have h1 : (W * Y - H * q) * 2 ^ 64 = s * q + r * Y := by
      rw [Nat.sub_mul]; omega
    have h2 : s * q + r * Y < 2 * q * 2 ^ 64 := by
      have hsq : s * q < 2 ^ 64 * q := mul_lt_mul_of_pos_right hsB hq
      have hrY : r * Y ≤ (q - 1) * 2 ^ 64 := Nat.mul_le_mul (by omega) hY
      omega
    have h3 : (W * Y - H * q) * 2 ^ 64 < 2 * q * 2 ^ 64 := by omega
    exact lt_of_mul_lt_mul_right h3 (Nat.zero_le _)
  have hlt64 : W * Y - H * q < 2 ^ 64 := by omega
  have hcomp : harveyMul q W Wp Y = W * Y - H * q := by
    unfold harveyMul multiply_uint64_hw64
    exact sub64_eq hHq hlt64
  refine ⟨by omega, ?_⟩
  rw [hcomp]
  have h4 : q * H ≤ W * Y := by rw [Nat.mul_comm]; exact hHq
  have := Nat.sub_mul_mod (x := W * Y) (k := H) (n := q) h4
  rw [Nat.mul_comm q H] at this
  exact this

/-- Casting a natural number congruence into `ZMod q`. -/
theorem natCast_eq_of_mod_eq {q a b : Nat} (h : a % q = b % q) :
    (a : ZMod q) = (b : ZMod q) :=
  (ZMod.natCast_eq_natCast_iff' a b q).mpr h

theorem harveyMul_cast {q W Wp Y : Nat} (hq : 0 < q) (hq62 : q < 2 ^ 62)
    (hW : W < q) (hWp : Wp = W * 2 ^ 64 / q) (hY : Y ≤ 2 ^ 64) :
    ((harveyMul q W Wp Y : Nat) : ZMod q) = (W : ZMod q) * (Y : ZMod q) := by
  have h := (harveyMul_spec hq hq62 hW hWp hY).2
  have := natCast_eq_of_mod_eq (q := q) h
  rw [this]
  push_cast
  ring

/-- The conditional subtraction by `2q` of a value below `4q` lands in
    `[0, 2q)` and does not change the residue. -/
theorem condSub2q_spec {q x : Nat} (hq62 : q < 2 ^ 62) (hx : x < 4 * q) :
    condSub x (2 * q) < 2 * q ∧ ((condSub x (2 * q) : Nat) : ZMod q) = (x : ZMod q) := by
  have hB : condSub x (2 * q) = if 2 * q ≤ x then x - 2 * q else x :=
    condSub_spec (by omega) (by omega)
  by_cases h : 2 * q ≤ x
  · rw [hB]
    simp only [h, if_true]
    refine ⟨by omega, ?_⟩
    have hcast : ((x - 2 * q : Nat) : ZMod q) = (x : ZMod q) - ((2 * q : Nat) : ZMod q) :=
      Nat.cast_sub h
    rw [hcast]
    push_cast
    rw [ZMod.natCast_self]
    ring
  · have hx' : condSub x (2 * q) = x := by rw [hB]; simp [h]
    rw [hx']
    exact ⟨by omega, rfl⟩


/-! ## Lemmas: bit reversal -/

theorem reverseBits_zero : ∀ k, reverseBits 0 k = 0
  | 0 => rfl
  | k + 1 => by simp [reverseBits, reverseBits_zero k]

theorem reverseBits_lt : ∀ (k x : Nat), reverseBits x k < 2 ^ k
  | 0, _ => by simp [reverseBits]
  | k + 1, x => by
    have h1 := reverseBits_lt k (x / 2)
    simp only [reverseBits, pow_succ]
    rcases Nat.mod_two_eq_zero_or_one x with h | h <;> rw [h] <;> omega

theorem reverseBits_two_mul (i s : Nat) :
    reverseBits (2 * i) (s + 1) = reverseBits i s := by
  simp [reverseBits, Nat.mul_mod_right, Nat.mul_div_cancel_left _ (by norm_num : 0 < 2)]

theorem reverseBits_two_mul_add_one (i s : Nat) :
    reverseBits (2 * i + 1) (s + 1) = 2 ^ s + reverseBits i s := by
  have h1 : (2 * i + 1) % 2 = 1 := by omega
  have h2 : (2 * i + 1) / 2 = i := by omega
  simp [reverseBits, h1, h2]

theorem reverseBits_high : ∀ (k b r : Nat), b < 2 → r < 2 ^ k →
    reverseBits (b * 2 ^ k + r) (k + 1) = 2 * reverseBits r k + b
  | 0, b, r, hb, hr => by
    interval_cases r
    interval_cases b <;> simp [reverseBits]
  | k + 1, b, r, hb, hr => by
    have hsplit : b * 2 ^ (k + 1) + r = 2 * (b * 2 ^ k) + r := by ring
    have hmod : (b * 2 ^ (k + 1) + r) % 2 = r % 2 := by rw [hsplit]; omega
    have hdiv : (b * 2 ^ (k + 1) + r) / 2 = b * 2 ^ k + r / 2 := by rw [hsplit]; omega
    have hr2 : r / 2 < 2 ^ k := by
      have h2 : 2 ^ (k + 1) = 2 * 2 ^ k := by ring
      omega
    have ih := reverseBits_high k b (r / 2) hb hr2
    calc reverseBits (b * 2 ^ (k + 1) + r) (k + 2)
        = r % 2 * 2 ^ (k + 1) + reverseBits (b * 2 ^ k + r / 2) (k + 1) := by
          simp only [reverseBits, hmod, hdiv]
      _ = r % 2 * 2 ^ (k + 1) + (2 * reverseBits (r / 2) k + b) := by rw [ih]
      _ = 2 * (r % 2 * 2 ^ k + reverseBits (r / 2) k) + b := by ring
      _ = 2 * reverseBits r (k + 1) + b := by simp only [reverseBits]

theorem reverseBits_reverseBits : ∀ (k x : Nat), x < 2 ^ k →
    reverseBits (reverseBits x k) k = x
  | 0, x, hx => by
    interval_cases x
    rfl
  | k + 1, x, hx => by
    have hb : x % 2 < 2 := Nat.mod_lt _ (by norm_num)
    have hrb : reverseBits (x / 2) k < 2 ^ k := reverseBits_lt k (x / 2)
    have hx2 : x / 2 < 2 ^ k := by
      have : 2 ^ (k + 1) = 2 * 2 ^ k := by ring
      omega
    have ih := reverseBits_reverseBits k (x / 2) hx2
    calc reverseBits (reverseBits x (k + 1)) (k + 1)
        = reverseBits (x % 2 * 2 ^ k + reverseBits (x / 2) k) (k + 1) := by
          simp only [reverseBits]
      _ = 2 * reverseBits (reverseBits (x / 2) k) k + x % 2 :=
          reverseBits_high k (x % 2) _ hb hrb
      _ = 2 * (x / 2) + x % 2 := by rw [ih]
      _ = x := by omega

theorem reverseBits_pow_add : ∀ (s k i : Nat), s < k → i < 2 ^ s →
    reverseBits (2 ^ s + i) k = (2 * reverseBits i s + 1) * 2 ^ (k - 1 - s)
  | 0, k, i, hsk, hi => by
    interval_cases i
    obtain ⟨k', rfl⟩ : ∃ k', k = k' + 1 := ⟨k - 1, by omega⟩
    have h1 : (2 ^ 0 + 0 : Nat) = 1 := by norm_num
    rw [h1]
    have h2 : reverseBits 1 (k' + 1) = 1 % 2 * 2 ^ k' + reverseBits (1 / 2) k' := rfl
    rw [h2]
    norm_num [reverseBits_zero, reverseBits]
  | s + 1, k, i, hsk, hi => by
    obtain ⟨k', rfl⟩ : ∃ k', k = k' + 1 := ⟨k - 1, by omega⟩
    have hmod : (2 ^ (s + 1) + i) % 2 = i % 2 := by
      have : 2 ^ (s + 1) = 2 * 2 ^ s := by ring
      omega
    have hdiv : (2 ^ (s + 1) + i) / 2 = 2 ^ s + i / 2 := by
      have : 2 ^ (s + 1) = 2 * 2 ^ s := by ring
      omega
    have hi2 : i / 2 < 2 ^ s := by
      have : 2 ^ (s + 1) = 2 * 2 ^ s := by ring
      omega
    have ih := reverseBits_pow_add s k' (i / 2) (by omega) hi2
    have hexp : 2 ^ (s + 1) * 2 ^ (k' - 1 - s) = 2 ^ k' := by
      rw [← pow_add]
      congr 1
      omega
    have hsub : k' + 1 - 1 - (s + 1) = k' - 1 - s := by omega
    calc reverseBits (2 ^ (s + 1) + i) (k' + 1)
        = i % 2 * 2 ^ k' + reverseBits (2 ^ s + i / 2) k' := by
          simp only [reverseBits, hmod, hdiv]
      _ = i % 2 * 2 ^ k' + (2 * reverseBits (i / 2) s + 1) * 2 ^ (k' - 1 - s) := by rw [ih]
      _ = i % 2 * (2 ^ (s + 1) * 2 ^ (k' - 1 - s)) +
            (2 * reverseBits (i / 2) s + 1) * 2 ^ (k' - 1 - s) := by rw [hexp]
      _ = (2 * (i % 2 * 2 ^ s + reverseBits (i / 2) s) + 1) * 2 ^ (k' - 1 - s) := by ring
      _ = (2 * reverseBits i (s + 1) + 1) * 2 ^ (k' + 1 - 1 - (s + 1)) := by
          simp only [reverseBits, hsub]


/-! ## Lemmas: loop evaluation -/

theorem bfStep_apply (F G : Nat → Nat → Nat) (t j : Nat) (v : Nat → Nat) (p : Nat) :
    bfStep F G t j v p =
      if p = j + t then G (v j) (v (j + t))
      else if p = j then F (v j) (v (j + t)) else v p := by
  simp only [bfStep, Function.update_apply]

/-- Evaluating the plain inner loop: a run of `c ≤ t` butterflies starting at
    `s` rewrites positions `[s, s+c)` with the `F` outputs and positions
    `[s+t, s+t+c)` with the `G` outputs, each computed from the original
    buffer; other positions are untouched. -/
theorem bfLoop_eval (F G : Nat → Nat → Nat) (t : Nat) :
    ∀ c s v p, c ≤ t →
      bfLoop F G t s c v p =
        if s ≤ p ∧ p < s + c then F (v p) (v (p + t))
        else if s + t ≤ p ∧ p < s + t + c then G (v (p - t)) (v p)
        else v p := by
  intro c
  induction c with
  | zero =>
    intro s v p _
    show v p = _
    have h1 : ¬(s ≤ p ∧ p < s + 0) := by omega
    have h2 : ¬(s + t ≤ p ∧ p < s + t + 0) := by omega
    rw [if_neg h1, if_neg h2]
  | succ c ih =>
    intro s v p hc
    show bfLoop F G t (s + 1) c (bfStep F G t s v) p = _
    rw [ih (s + 1) (bfStep F G t s v) p (by omega)]
    have hstep := bfStep_apply F G t s v
    by_cases hA : s + 1 ≤ p ∧ p < s + 1 + c
    · have e1 : bfStep F G t s v p = v p := by
        rw [hstep p, if_neg (by omega : ¬(p = s + t)), if_neg (by omega : ¬(p = s))]
      have e2 : bfStep F G t s v (p + t) = v (p + t) := by
        rw [hstep (p + t), if_neg (by omega : ¬(p + t = s + t)),
          if_neg (by omega : ¬(p + t = s))]
      rw [if_pos hA, e1, e2, if_pos (by omega : s ≤ p ∧ p < s + (c + 1))]
    · rw [if_neg hA]
      by_cases hB : s + 1 + t ≤ p ∧ p < s + 1 + t + c
      · have e1 : bfStep F G t s v (p - t) = v (p - t) := by
          rw [hstep (p - t), if_neg (by omega : ¬(p - t = s + t)),
            if_neg (by omega : ¬(p - t = s))]
        have e2 : bfStep F G t s v p = v p := by
          rw [hstep p, if_neg (by omega : ¬(p = s + t)), if_neg (by omega : ¬(p = s))]
        rw [if_pos hB, e1, e2, if_neg (by omega : ¬(s ≤ p ∧ p < s + (c + 1))),
          if_pos (by omega : s + t ≤ p ∧ p < s + t + (c + 1))]
      · rw [if_neg hB, hstep p]
        by_cases hp1 : p = s + t
        · rw [if_pos hp1, if_neg (by omega : ¬(s ≤ p ∧ p < s + (c + 1))),
            if_pos (by omega : s + t ≤ p ∧ p < s + t + (c + 1)), hp1]
          have : s + t - t = s := by omega
          rw [this]
        · rw [if_neg hp1]
          by_cases hp2 : p = s
          · rw [if_pos hp2, if_pos (by omega : s ≤ p ∧ p < s + (c + 1)), hp2]
          · rw [if_neg hp2, if_neg (by omega : ¬(s ≤ p ∧ p < s + (c + 1))),
              if_neg (by omega : ¬(s + t ≤ p ∧ p < s + t + (c + 1)))]

/-- Positions not touched by a run of `c ≤ t` butterflies keep their value. -/
theorem bfLoop_out (F G : Nat → Nat → Nat) (t c s : Nat) (v : Nat → Nat) (p : Nat)
    (hc : c ≤ t) (hp : p < s ∨ s + t + c ≤ p ∨ (s + c ≤ p ∧ p < s + t)) :
    bfLoop F G t s c v p = v p := by
  rw [bfLoop_eval F G t c s v p hc, if_neg (by omega : ¬(s ≤ p ∧ p < s + c)),
    if_neg (by omega : ¬(s + t ≤ p ∧ p < s + t + c))]

/-- Positions outside the processed blocks are untouched by the block loop. -/
theorem blocksLoop_bf_out (F G : Nat → Nat → Nat → Nat) (t : Nat) :
    ∀ c r0 j0 v p, (p < j0 ∨ j0 + 2 * t * c ≤ p) →
      blocksLoop (fun r j1 => bfLoop (F r) (G r) t j1 t) (2 * t) r0 j0 c v p = v p := by
  intro c
  induction c with
  | zero => intro r0 j0 v p _; rfl
  | succ c ih =>
    intro r0 j0 v p hp
    have hmul : 2 * t * (c + 1) = 2 * t + 2 * t * c := by ring
    show blocksLoop _ (2 * t) (r0 + 1) (j0 + 2 * t) c
      (bfLoop (F r0) (G r0) t j0 t v) p = v p
    rw [ih (r0 + 1) (j0 + 2 * t) _ p (by omega)]
    rw [bfLoop_eval (F r0) (G r0) t t j0 v p le_rfl,
      if_neg (by omega : ¬(j0 ≤ p ∧ p < j0 + t)),
      if_neg (by omega : ¬(j0 + t ≤ p ∧ p < j0 + t + t))]

/-- Evaluating the block loop inside block `i` at in-block offset `w`:
    the butterfly family of block `i` is applied to the original buffer. -/
theorem blocksLoop_bf_in (F G : Nat → Nat → Nat → Nat) (t : Nat) :
    ∀ c r0 j0 v i w, i < c → w < 2 * t →
      blocksLoop (fun r j1 => bfLoop (F r) (G r) t j1 t) (2 * t) r0 j0 c v
          (j0 + 2 * t * i + w) =
        if w < t then
          F (r0 + i) (v (j0 + 2 * t * i + w)) (v (j0 + 2 * t * i + w + t))
        else G (r0 + i) (v (j0 + 2 * t * i + w - t)) (v (j0 + 2 * t * i + w)) := by
  intro c
  induction c with
  | zero => intro r0 j0 v i w hi _; omega
  | succ c ih =>
    intro r0 j0 v i w hi hw
    show blocksLoop _ (2 * t) (r0 + 1) (j0 + 2 * t) c
      (bfLoop (F r0) (G r0) t j0 t v) (j0 + 2 * t * i + w) = _
    match i with
    | 0 =>
      have hp : j0 + 2 * t * 0 + w = j0 + w := by ring
      rw [hp]
      rw [blocksLoop_bf_out F G t c (r0 + 1) (j0 + 2 * t) _ (j0 + w) (by omega)]
      rw [bfLoop_eval (F r0) (G r0) t t j0 v (j0 + w) le_rfl]
      by_cases hwt : w < t
      · rw [if_pos (by omega : j0 ≤ j0 + w ∧ j0 + w < j0 + t), if_pos hwt]
        norm_num
      · rw [if_neg (by omega : ¬(j0 ≤ j0 + w ∧ j0 + w < j0 + t)),
          if_pos (by omega : j0 + t ≤ j0 + w ∧ j0 + w < j0 + t + t), if_neg hwt]
        norm_num
    | i' + 1 =>
      have hstep : j0 + 2 * t * (i' + 1) + w = (j0 + 2 * t) + 2 * t * i' + w := by ring
      rw [hstep, ih (r0 + 1) (j0 + 2 * t) _ i' w (by omega) hw]
      have hbase : j0 + t + t ≤ (j0 + 2 * t) + 2 * t * i' + w := by
        have h1 : j0 + t + t = j0 + 2 * t := by ring
        rw [h1]
        exact le_trans (Nat.le_add_right _ _) (Nat.le_add_right _ _)
      have e1 : bfLoop (F r0) (G r0) t j0 t v ((j0 + 2 * t) + 2 * t * i' + w) =
          v ((j0 + 2 * t) + 2 * t * i' + w) :=
        bfLoop_out _ _ _ _ _ _ _ le_rfl (Or.inr (Or.inl hbase))
      have er : r0 + 1 + i' = r0 + (i' + 1) := by omega
      by_cases hwt : w < t
      · have e2 : bfLoop (F r0) (G r0) t j0 t v ((j0 + 2 * t) + 2 * t * i' + w + t) =
            v ((j0 + 2 * t) + 2 * t * i' + w + t) :=
          bfLoop_out _ _ _ _ _ _ _ le_rfl
            (Or.inr (Or.inl (le_trans hbase (Nat.le_add_right _ _))))
        rw [if_pos hwt, if_pos hwt, e1, e2, er]
      · have hsub : j0 + t + t + t ≤ (j0 + 2 * t) + 2 * t * i' + w := by
          have h1 : j0 + t + t + t = (j0 + 2 * t) + t := by ring
          rw [h1]
          have h2 : (j0 + 2 * t) + t ≤ ((j0 + 2 * t) + 2 * t * i') + t :=
            Nat.add_le_add_right (Nat.le_add_right _ _) t
          exact le_trans h2 (Nat.add_le_add_left (by omega) _)
        have e3 : bfLoop (F r0) (G r0) t j0 t v ((j0 + 2 * t) + 2 * t * i' + w - t) =
            v ((j0 + 2 * t) + 2 * t * i' + w - t) :=
          bfLoop_out _ _ _ _ _ _ _ le_rfl
            (Or.inr (Or.inl (Nat.le_sub_of_add_le hsub)))
        rw [if_neg hwt, if_neg hwt, e1, e3, er]

/-- Unrolling groups of four butterflies agrees with the plain loop. -/
theorem bfLoop4_eq (F G : Nat → Nat → Nat) (t : Nat) :
    ∀ c j v, bfLoop4 F G t j c v = bfLoop F G t j (4 * c) v := by
  intro c
  induction c with
  | zero => intro j v; rfl
  | succ c ih =>
    intro j v
    have h4 : 4 * (c + 1) = 4 * c + 1 + 1 + 1 + 1 := by ring
    rw [h4]
    show bfLoop4 F G t (j + 4) c _ = _
    rw [ih (j + 4)]
    simp only [bfLoop]

/-- For power-of-two `t` the source's unrolled inner loop of the forward pass
    coincides with the plain one. -/
theorem fwdInner_eq_ref (q W Wp : Nat) (e j1 : Nat) (v : Nat → Nat) :
    fwdInner q W Wp (2 ^ e) j1 v = fwdInnerRef q W Wp (2 ^ e) j1 v := by
  unfold fwdInner fwdInnerRef
  by_cases h4 : 4 ≤ 2 ^ e
  · rw [if_pos h4]
    have he2 : 2 ≤ e := by
      by_contra h
      interval_cases e <;> omega
    obtain ⟨e', rfl⟩ : ∃ e', e = e' + 2 := ⟨e - 2, by omega⟩
    have hpow : (2 : Nat) ^ (e' + 2) = 4 * 2 ^ e' := by ring
    have hdiv : (2 ^ (e' + 2) + 3) / 4 = 2 ^ e' := by rw [hpow]; omega
    rw [hdiv, bfLoop4_eq, ← hpow]
  · rw [if_neg h4]

/-- For power-of-two `t` the source's unrolled inner loop of the inverse pass
    coincides with the plain one. -/
theorem invInner_eq_ref (q W Wp : Nat) (e j1 : Nat) (v : Nat → Nat) :
    invInner q W Wp (2 ^ e) j1 v = invInnerRef q W Wp (2 ^ e) j1 v := by
  unfold invInner invInnerRef
  by_cases h4 : 4 ≤ 2 ^ e
  · rw [if_pos h4]
    have he2 : 2 ≤ e := by
      by_contra h
      interval_cases e <;> omega
    obtain ⟨e', rfl⟩ : ∃ e', e = e' + 2 := ⟨e - 2, by omega⟩
    have hpow : (2 : Nat) ^ (e' + 2) = 4 * 2 ^ e' := by ring
    have hdiv : (2 ^ (e' + 2) + 3) / 4 = 2 ^ e' := by rw [hpow]; omega
    rw [hdiv, bfLoop4_eq, ← hpow]
  · rw [if_neg h4]


/-! ## Lemmas: list access helpers -/

theorem getD_map_range (f : Nat → Nat) (n i : Nat) (hi : i < n) :
    ((List.range n).map f).getD i 0 = f i := by
  rw [List.getD_eq_getElem?_getD, List.getElem?_map, List.getElem?_range hi]
  rfl

theorem getD_map (f : Nat → Nat) (l : List Nat) (i : Nat) (hi : i < l.length) :
    (l.map f).getD i 0 = f (l.getD i 0) := by
  rw [List.getD_eq_getElem?_getD, List.getElem?_map,
    List.getElem?_eq_getElem hi, List.getD_eq_getElem?_getD,
    List.getElem?_eq_getElem hi]
  rfl

/-! ## Lemmas: the modelled collaborators -/

theorem try_invert_spec {x q y : Nat} (h : try_invert_uint_mod x q = some y) :
    x * y % q = 1 ∧ y < q := by
  have h1 := List.find?_some h
  have h2 := List.mem_of_find?_eq_some h
  rw [List.mem_range] at h2
  rw [beq_iff_eq] at h1
  exact ⟨h1, h2⟩

theorem try_root_spec {m q psi : Nat} (h : try_minimal_primitive_root m q = some psi) :
    psi < q ∧ psi ^ m % q = 1 ∧ ∀ j, j < m → 0 < j → psi ^ j % q ≠ 1 := by
  have h1 := List.find?_some h
  have h2 := List.mem_of_find?_eq_some h
  rw [List.mem_range] at h2
  unfold primitiveRootCheck at h1
  rw [Bool.and_eq_true, beq_iff_eq, decide_eq_true_iff] at h1
  exact ⟨h2, h1.1, h1.2⟩

/-- Successful primitivity implies `1 < q`. -/
theorem one_lt_q_of_root {m q psi : Nat} (h : try_minimal_primitive_root m q = some psi) :
    1 < q := by
  obtain ⟨hlt, h1, _⟩ := try_root_spec h
  have h2 := Nat.mod_one (psi ^ m)
  rcases Nat.lt_or_ge q 2 with hq | hq
  · interval_cases q <;> omega
  · omega

/-- The Shoup ratio of a value below the modulus fits in 64 bits, so the low
    quotient word is the full quotient. -/
theorem divide_uint128_lt {w q : Nat} (hq : 0 < q) (hw : w < q) :
    divide_uint128_uint64_lo w q = w * 2 ^ 64 / q ∧ w * 2 ^ 64 / q < 2 ^ 64 := by
  have hB : (0 : Nat) < 2 ^ 64 := by norm_num
  have h1 : w * 2 ^ 64 / q < 2 ^ 64 := by
    rw [Nat.div_lt_iff_lt_mul hq, Nat.mul_comm (2 ^ 64) q]
    exact Nat.mul_lt_mul_of_pos_right hw hB
  exact ⟨Nat.mod_eq_of_lt h1, h1⟩

/-! ## Lemmas: the power table -/

theorem reverseBits_inj {k x y : Nat} (hx : x < 2 ^ k) (hy : y < 2 ^ k)
    (h : reverseBits x k = reverseBits y k) : x = y := by
  have := congrArg (fun z => reverseBits z k) h
  simpa [reverseBits_reverseBits k x hx, reverseBits_reverseBits k y hy] using this

theorem nttPowersStep_spec (q root k : Nat) :
    ∀ c i0 (d : Nat → Nat) (cur : Nat), 1 ≤ i0 → i0 + c ≤ 2 ^ k →
      cur = reverseBits (i0 - 1) k →
      (∀ j, j < i0 → d (reverseBits j k) = root ^ j % q) →
      ∀ j, j < i0 + c →
        (nttPowersStep q root k i0 c (d, cur)).1 (reverseBits j k) = root ^ j % q := by
  intro c
  induction c with
  | zero =>
    intro i0 d cur _ _ _ hd j hj
    exact hd j (by omega)
  | succ c ih =>
    intro i0 d cur hi0 hle hcur hd j hj
    show (nttPowersStep q root k (i0 + 1) c
      (Function.update d (reverseBits i0 k) _, reverseBits i0 k)).1 _ = _
    have hval : multiply_uint_uint_mod (d cur) root q = root ^ i0 % q := by
      have h1 : d cur = root ^ (i0 - 1) % q := by
        rw [hcur]
        exact hd (i0 - 1) (by omega)
      unfold multiply_uint_uint_mod
      rw [h1, Nat.mod_mul_mod]
      congr 1
      rw [← pow_succ]
      congr 1
      omega
    have hd' : ∀ j', j' < i0 + 1 →
        Function.update d (reverseBits i0 k) (multiply_uint_uint_mod (d cur) root q)
          (reverseBits j' k) = root ^ j' % q := by
      intro j' hj'
      by_cases hji : j' = i0
      · subst hji
        rw [Function.update_same, hval]
      · have hne : reverseBits j' k ≠ reverseBits i0 k := by
          intro hcontra
          exact hji (reverseBits_inj (by omega) (by omega) hcontra)
        rw [Function.update_noteq hne]
        exact hd j' (by omega)
    have hcur' : reverseBits i0 k = reverseBits (i0 + 1 - 1) k := by
      simp
    have := ih (i0 + 1)
      (Function.update d (reverseBits i0 k) (multiply_uint_uint_mod (d cur) root q))
      (reverseBits i0 k) (by omega) (by omega) hcur' hd' j (by omega)
    exact this

theorem nttPowersFun_spec (q root k : Nat) (hq : 1 < q) :
    ∀ i, i < 2 ^ k → nttPowersFun q root k (reverseBits i k) = root ^ i % q := by
  intro i hi
  unfold nttPowersFun
  have hpos : 1 ≤ 2 ^ k := Nat.one_le_two_pow
  refine nttPowersStep_spec q root k (2 ^ k - 1) 1 _ 0 le_rfl (by omega)
    (by simp [reverseBits_zero]) ?_ i (by omega)
  intro j hj
  interval_cases j
  rw [reverseBits_zero, Function.update_same, pow_zero, Nat.mod_eq_of_lt hq]

/-- Entrywise description of the power table: position `p` holds
    `root ^ bitrev_k(p) mod q`. -/
theorem nttPowersFun_apply (q root k : Nat) (hq : 1 < q) (p : Nat) (hp : p < 2 ^ k) :
    nttPowersFun q root k p = root ^ (reverseBits p k) % q := by
  have h1 := nttPowersFun_spec q root k hq (reverseBits p k) (reverseBits_lt k p)
  rw [reverseBits_reverseBits k p hp] at h1
  exact h1

theorem ntt_powers_length (q root k : Nat) :
    (ntt_powers_of_primitive_root q root k).length = 2 ^ k := by
  simp [ntt_powers_of_primitive_root]

theorem ntt_powers_getD (q root k i : Nat) (hi : i < 2 ^ k) :
    (ntt_powers_of_primitive_root q root k).getD i 0 = nttPowersFun q root k i :=
  getD_map_range _ _ _ hi

/-! ## Lemmas: the reordering -/

theorem seqSlices_length (l : List Nat) : ∀ s, (seqSlices l s).length = 2 ^ s - 1
  | 0 => rfl
  | s + 1 => by
    have h1 : (2 : Nat) ^ (s + 1) = 2 * 2 ^ s := by ring
    have h2 : (1 : Nat) ≤ 2 ^ s := Nat.one_le_two_pow
    simp [seqSlices, seqSlices_length l s, h1]
    omega

theorem seqSlices_getD (l : List Nat) :
    ∀ k s i, s < k → i < 2 ^ s →
      (seqSlices l k).getD (2 ^ k - 2 ^ (s + 1) + i) 0 = l.getD (2 ^ s + i) 0 := by
  intro k
  induction k with
  | zero => intro s i hs _; omega
  | succ k ih =>
    intro s i hs hi
    show ((List.range (2 ^ k)).map (fun j => l.getD (2 ^ k + j) 0) ++ seqSlices l k).getD
      (2 ^ (k + 1) - 2 ^ (s + 1) + i) 0 = _
    by_cases hsk : s = k
    · subst hsk
      have hidx : 2 ^ (s + 1) - 2 ^ (s + 1) + i = i := by omega
      rw [hidx, List.getD_eq_getElem?_getD,
        List.getElem?_append_left (by simpa using hi),
        ← List.getD_eq_getElem?_getD, getD_map_range _ _ _ hi]
    · have hsk' : s < k := by omega
      have hpow : 2 ^ (s + 1) ≤ 2 ^ k := Nat.pow_le_pow_right (by norm_num) (by omega)
      have hlen : ((List.range (2 ^ k)).map (fun j => l.getD (2 ^ k + j) 0)).length = 2 ^ k := by
        simp
      have h2 : (2 : Nat) ^ (k + 1) = 2 * 2 ^ k := by ring
      have hge : 2 ^ k ≤ 2 ^ (k + 1) - 2 ^ (s + 1) + i := by omega
      rw [List.getD_eq_getElem?_getD, List.getElem?_append_right (by omega),
        ← List.getD_eq_getElem?_getD, hlen]
      have hidx : 2 ^ (k + 1) - 2 ^ (s + 1) + i - 2 ^ k = 2 ^ k - 2 ^ (s + 1) + i := by
        omega
      rw [hidx]
      exact ih s i hsk' hi

theorem reorder_inv_getD (l : List Nat) (k s i : Nat) (hs : s < k) (hi : i < 2 ^ s) :
    (reorder_inv_powers l k).getD (2 ^ k - 2 ^ (s + 1) + 1 + i) 0 = l.getD (2 ^ s + i) 0 := by
  have hidx : 2 ^ k - 2 ^ (s + 1) + 1 + i = (2 ^ k - 2 ^ (s + 1) + i) + 1 := by omega
  rw [reorder_inv_powers, hidx, List.getD_cons_succ]
  exact seqSlices_getD l k s i hs hi


/-! ## Lemmas: the table build -/

/-- The fully populated table produced by a successful build. -/
theorem buildTable_eq {k q psi psiInv invDeg : Nat}
    (h1 : try_minimal_primitive_root (2 * 2 ^ k) q = some psi)
    (h2 : try_invert_uint_mod psi q = some psiInv)
    (h3 : try_invert_uint_mod (2 ^ k) q = some invDeg) :
    buildTable k q =
      { is_initialized := true
        modulus := q
        root := psi
        coeff_count_power := k
        coeff_count := 2 ^ k
        root_powers := ntt_powers_of_primitive_root q psi k
        scaled_root_powers :=
          ntt_scale_powers_of_primitive_root q (ntt_powers_of_primitive_root q psi k)
        inv_root_powers := reorder_inv_powers (ntt_powers_of_primitive_root q psiInv k) k
        scaled_inv_root_powers :=
          reorder_inv_powers
            (ntt_scale_powers_of_primitive_root q (ntt_powers_of_primitive_root q psiInv k)) k
        inv_root_powers_div_two :=
          (ntt_powers_of_primitive_root q psiInv k).map (fun x => div2_uint_mod x q)
        scaled_inv_root_powers_div_two :=
          ntt_scale_powers_of_primitive_root q
            ((ntt_powers_of_primitive_root q psiInv k).map (fun x => div2_uint_mod x q))
        inv_degree_modulo := invDeg } := by
  simp only [buildTable, h1, h2, h3]

/-- A build that did not set the flag produced exactly the reset state. -/
theorem buildTable_not_init {k q : Nat}
    (h : (buildTable k q).is_initialized = false) : buildTable k q = resetTables := by
  unfold buildTable at h ⊢
  rcases hr : try_minimal_primitive_root (2 * 2 ^ k) q with _ | psi
  · simp only [hr]
  · rcases hv : try_invert_uint_mod psi q with _ | psiInv
    · simp only [hr, hv]
    · rcases hd : try_invert_uint_mod (2 ^ k) q with _ | invDeg
      · simp only [hr, hv, hd]
      · simp only [hr, hv, hd] at h
        exact Bool.noConfusion h

/-- A successful build pins down the three collaborator calls. -/
theorem buildTable_success {k q : Nat} (h : (buildTable k q).is_initialized = true) :
    ∃ psi psiInv invDeg,
      try_minimal_primitive_root (2 * 2 ^ k) q = some psi ∧
      try_invert_uint_mod psi q = some psiInv ∧
      try_invert_uint_mod (2 ^ k) q = some invDeg := by
  simp only [buildTable] at h
  rcases hr : try_minimal_primitive_root (2 * 2 ^ k) q with _ | psi
  · simp only [hr] at h
    simp [resetTables] at h
  · rcases hv : try_invert_uint_mod psi q with _ | psiInv
    · simp only [hr, hv] at h
      simp [resetTables] at h
    · rcases hd : try_invert_uint_mod (2 ^ k) q with _ | invDeg
      · simp only [hr, hv, hd] at h
        simp [resetTables] at h
      · exact ⟨psi, psiInv, invDeg, by simp [hr], by simp [hv], by simp [hd]⟩


/-! ## Lemmas: the butterfly bodies -/

theorem tySub_spec {q x y : Nat} (hq62 : q < 2 ^ 62) (hx : x < 2 * q) (hy : y < 2 * q) :
    sub64 (add64 x (2 * q)) y = x + 2 * q - y ∧ x + 2 * q - y < 4 * q ∧
      ((x + 2 * q - y : Nat) : ZMod q) = (x : ZMod q) - (y : ZMod q) := by
  have h1 : add64 x (2 * q) = x + 2 * q := add64_eq (by omega)
  have h2 : sub64 (x + 2 * q) y = x + 2 * q - y := sub64_eq' (by omega) (by omega)
  refine ⟨by rw [h1, h2], by omega, ?_⟩
  have hcast : ((x + 2 * q - y : Nat) : ZMod q) =
      ((x + 2 * q : Nat) : ZMod q) - (y : ZMod q) := Nat.cast_sub (by omega)
  rw [hcast]
  push_cast
  rw [ZMod.natCast_self]
  ring

theorem fwdF_spec {q W Wp x y : Nat} (hq : 0 < q) (hq62 : q < 2 ^ 62) (hW : W < q)
    (hWp : Wp = W * 2 ^ 64 / q) (hx : x < 4 * q) (hy : y < 4 * q) :
    fwdF q W Wp x y < 4 * q ∧
      ((fwdF q W Wp x y : Nat) : ZMod q) =
        (x : ZMod q) + (W : ZMod q) * (y : ZMod q) := by
  obtain ⟨htx1, htx2⟩ := condSub2q_spec hq62 hx
  obtain ⟨hT1, _⟩ := harveyMul_spec hq hq62 hW hWp (le_of_lt (by omega : y < 2 ^ 64))
  have hTc := harveyMul_cast hq hq62 hW hWp (le_of_lt (by omega : y < 2 ^ 64))
  have hadd : fwdF q W Wp x y = condSub x (2 * q) + harveyMul q W Wp y :=
    add64_eq (by omega)
  rw [hadd]
  refine ⟨by omega, ?_⟩
  push_cast
  rw [htx2, hTc]

theorem fwdG_spec {q W Wp x y : Nat} (hq : 0 < q) (hq62 : q < 2 ^ 62) (hW : W < q)
    (hWp : Wp = W * 2 ^ 64 / q) (hx : x < 4 * q) (hy : y < 4 * q) :
    fwdG q W Wp x y < 4 * q ∧
      ((fwdG q W Wp x y : Nat) : ZMod q) =
        (x : ZMod q) - (W : ZMod q) * (y : ZMod q) := by
  obtain ⟨htx1, htx2⟩ := condSub2q_spec hq62 hx
  obtain ⟨hT1, _⟩ := harveyMul_spec hq hq62 hW hWp (le_of_lt (by omega : y < 2 ^ 64))
  have hTc := harveyMul_cast hq hq62 hW hWp (le_of_lt (by omega : y < 2 ^ 64))
  obtain ⟨he, hb, hc⟩ := tySub_spec hq62 htx1 hT1
  have hval : fwdG q W Wp x y = condSub x (2 * q) + 2 * q - harveyMul q W Wp y := by
    unfold fwdG
    exact he
  rw [hval]
  exact ⟨hb, by rw [hc, htx2, hTc]⟩

theorem invF_spec {q x y : Nat} (hq62 : q < 2 ^ 62) (hx : x < 2 * q) (hy : y < 2 * q) :
    invF q x y < 2 * q ∧
      ((invF q x y : Nat) : ZMod q) = (x : ZMod q) + (y : ZMod q) := by
  have hadd : add64 x y = x + y := add64_eq (by omega)
  have h := condSub2q_spec hq62 (x := x + y) (by omega)
  have hval : invF q x y = condSub (x + y) (2 * q) := by
    unfold invF
    rw [hadd]
  rw [hval]
  exact ⟨h.1, by rw [h.2]; push_cast; ring⟩

theorem invG_spec {q W Wp x y : Nat} (hq : 0 < q) (hq62 : q < 2 ^ 62) (hW : W < q)
    (hWp : Wp = W * 2 ^ 64 / q) (hx : x < 2 * q) (hy : y < 2 * q) :
    invG q W Wp x y < 2 * q ∧
      ((invG q W Wp x y : Nat) : ZMod q) =
        (W : ZMod q) * ((x : ZMod q) - (y : ZMod q)) := by
  obtain ⟨he, hb, hc⟩ := tySub_spec hq62 hx hy
  have hval : invG q W Wp x y = harveyMul q W Wp (x + 2 * q - y) := by
    unfold invG
    rw [he]
  rw [hval]
  obtain ⟨h1, _⟩ := harveyMul_spec hq hq62 hW hWp (le_of_lt (by omega : x + 2 * q - y < 2 ^ 64))
  have h2 := harveyMul_cast hq hq62 hW hWp (le_of_lt (by omega : x + 2 * q - y < 2 ^ 64))
  exact ⟨h1, by rw [h2, hc]⟩

theorem invFinalF_spec {q iN iNp x y : Nat} (hq : 0 < q) (hq62 : q < 2 ^ 62)
    (hiN : iN < q) (hiNp : iNp = iN * 2 ^ 64 / q) (hx : x < 2 * q) (hy : y < 2 * q) :
    invFinalF q iN iNp x y < 2 * q ∧
      ((invFinalF q iN iNp x y : Nat) : ZMod q) =
        (iN : ZMod q) * ((x : ZMod q) + (y : ZMod q)) := by
  have hadd : add64 x y = x + y := add64_eq (by omega)
  have h := condSub2q_spec hq62 (x := x + y) (by omega)
  have hval : invFinalF q iN iNp x y = harveyMul q iN iNp (condSub (x + y) (2 * q)) := by
    unfold invFinalF
    rw [hadd]
  rw [hval]
  obtain ⟨h1, _⟩ := harveyMul_spec hq hq62 hiN hiNp
    (le_of_lt (by omega : condSub (x + y) (2 * q) < 2 ^ 64))
  have h2 := harveyMul_cast hq hq62 hiN hiNp
    (le_of_lt (by omega : condSub (x + y) (2 * q) < 2 ^ 64))
  exact ⟨h1, by rw [h2, h.2]; push_cast; ring⟩

theorem invFinalG_spec {q iNW iNWp x y : Nat} (hq : 0 < q) (hq62 : q < 2 ^ 62)
    (hiNW : iNW < q) (hiNWp : iNWp = iNW * 2 ^ 64 / q) (hx : x < 2 * q) (hy : y < 2 * q) :
    invFinalG q iNW iNWp x y < 2 * q ∧
      ((invFinalG q iNW iNWp x y : Nat) : ZMod q) =
        (iNW : ZMod q) * ((x : ZMod q) - (y : ZMod q)) := by
  obtain ⟨he, hb, hc⟩ := tySub_spec hq62 hx hy
  have hval : invFinalG q iNW iNWp x y = harveyMul q iNW iNWp (x + 2 * q - y) := by
    unfold invFinalG
    rw [he]
  rw [hval]
  obtain ⟨h1, _⟩ := harveyMul_spec hq hq62 hiNW hiNWp
    (le_of_lt (by omega : x + 2 * q - y < 2 ^ 64))
  have h2 := harveyMul_cast hq hq62 hiNW hiNWp
    (le_of_lt (by omega : x + 2 * q - y < 2 ^ 64))
  exact ⟨h1, by rw [h2, hc]⟩


/-! ## Lemmas: the forward stage -/

/-- Splitting a sum over an even range into even- and odd-indexed parts. -/
theorem sum_range_double {M : Type*} [AddCommMonoid M] (n : Nat) (f : Nat → M) :
    ∑ r ∈ Finset.range (2 * n), f r =
      (∑ r ∈ Finset.range n, f (2 * r)) + ∑ r ∈ Finset.range n, f (2 * r + 1) := by
  induction n with
  | zero => simp
  | succ n ih =>
    have h2 : 2 * (n + 1) = 2 * n + 1 + 1 := by ring
    rw [h2, Finset.sum_range_succ, Finset.sum_range_succ, ih,
      Finset.sum_range_succ, Finset.sum_range_succ]
    abel

/-- A forward stage written with the plain inner loop. -/
theorem fwdStage_eq_bf (q : Nat) (W Wp : Nat → Nat) (m e : Nat) (v : Nat → Nat) :
    fwdStage q W Wp m (2 ^ e) v =
      blocksLoop
        (fun r j1 => bfLoop (fwdF q (W r) (Wp r)) (fwdG q (W r) (Wp r)) (2 ^ e) j1 (2 ^ e))
        (2 * 2 ^ e) m 0 m v := by
  unfold fwdStage
  have hinner : (fun r j1 => fwdInner q (W r) (Wp r) (2 ^ e) j1) =
      (fun r j1 =>
        bfLoop (fwdF q (W r) (Wp r)) (fwdG q (W r) (Wp r)) (2 ^ e) j1 (2 ^ e)) := by
    funext r j1 v'
    exact fwdInner_eq_ref q (W r) (Wp r) e j1 v'
  rw [hinner]

/-- One forward stage preserves the `< 4q` range and advances the partial
    transform invariant by one level. -/
theorem fwdStage_inv {q : Nat} (hq : 0 < q) (hq62 : q < 2 ^ 62) (z : ZMod q)
    (W Wp : Nat → Nat) (a : Nat → Nat) (s e : Nat)
    (hzn : z ^ (2 ^ (s + e + 1)) = -1)
    (hW : ∀ i, i < 2 ^ s → W (2 ^ s + i) < q ∧
        ((W (2 ^ s + i) : Nat) : ZMod q) = z ^ ((2 * reverseBits i s + 1) * 2 ^ e) ∧
        Wp (2 ^ s + i) = W (2 ^ s + i) * 2 ^ 64 / q)
    (v : Nat → Nat)
    (hrange : inRange (2 ^ (s + e + 1)) (4 * q) v)
    (hcong : fwdCong q z a s (e + 1) v) :
    inRange (2 ^ (s + e + 1)) (4 * q) (fwdStage q W Wp (2 ^ s) (2 ^ e) v) ∧
    fwdCong q z a (s + 1) e (fwdStage q W Wp (2 ^ s) (2 ^ e) v) := by
  have ht : (0 : Nat) < 2 ^ e := Nat.pos_pow_of_pos e (by norm_num)
  have hm : (0 : Nat) < 2 ^ s := Nat.pos_pow_of_pos s (by norm_num)
  have htot : (2 : Nat) ^ s * (2 * 2 ^ e) = 2 ^ (s + e + 1) := by
    rw [show s + e + 1 = s + (e + 1) from rfl, pow_add, pow_succ]
    ring
  have hE : (2 : Nat) ^ (e + 1) = 2 * 2 ^ e := by rw [pow_succ]; ring
  have hblock : ∀ i, i < 2 ^ s → 2 * 2 ^ e * i + 2 * 2 ^ e ≤ 2 ^ (s + e + 1) := by
    intro i hilt
    have h3 : 2 * 2 ^ e * (i + 1) ≤ 2 * 2 ^ e * 2 ^ s :=
      Nat.mul_le_mul_left _ (by omega)
    have h2 : 2 * 2 ^ e * (i + 1) = 2 * 2 ^ e * i + 2 * 2 ^ e := by ring
    have h4 : 2 * 2 ^ e * 2 ^ s = 2 ^ s * (2 * 2 ^ e) := by ring
    omega
  rw [fwdStage_eq_bf]
  constructor
  · -- range
    intro p hp
    have hdm := Nat.div_add_mod p (2 * 2 ^ e)
    set i := p / (2 * 2 ^ e) with hi
    set w := p % (2 * 2 ^ e) with hw'
    have hwlt : w < 2 * 2 ^ e := Nat.mod_lt _ (by omega)
    have hilt : i < 2 ^ s := by
      rw [hi, Nat.div_lt_iff_lt_mul (by omega : 0 < 2 * 2 ^ e), htot]
      exact hp
    have hbl := hblock i hilt
    have hpos : p = 0 + 2 * 2 ^ e * i + w := by omega
    rw [hpos, blocksLoop_bf_in _ _ (2 ^ e) (2 ^ s) (2 ^ s) 0 v i w hilt hwlt]
    obtain ⟨hWlt, _, hWp⟩ := hW i hilt
    by_cases hwt : w < 2 ^ e
    · rw [if_pos hwt]
      exact (fwdF_spec hq hq62 hWlt hWp (hrange _ (by omega)) (hrange _ (by omega))).1
    · rw [if_neg hwt]
      exact (fwdG_spec hq hq62 hWlt hWp (hrange _ (by omega)) (hrange _ (by omega))).1
  · -- congruence invariant
    intro b hb o ho
    have hb2 := Nat.div_add_mod b 2
    set i := b / 2 with hidef
    have hilt : i < 2 ^ s := by
      rw [hidef, Nat.div_lt_iff_lt_mul (by norm_num : (0:Nat) < 2)]
      have hds : (2 : Nat) ^ (s + 1) = 2 ^ s * 2 := pow_succ 2 s
      omega
    obtain ⟨hWlt, hWz, hWp⟩ := hW i hilt
    have hbl := hblock i hilt
    have hoe : o < 2 ^ (e + 1) := by omega
    have hYoff : 2 ^ e + o < 2 ^ (e + 1) := by omega
    have hXv := hcong i hilt o hoe
    have hYv := hcong i hilt (2 ^ e + o) hYoff
    have hXi : i * 2 ^ (e + 1) + o = 0 + 2 * 2 ^ e * i + o := by rw [hE]; ring
    have hYi : i * 2 ^ (e + 1) + (2 ^ e + o) = 0 + 2 * 2 ^ e * i + (2 ^ e + o) := by
      rw [hE]; ring
    rw [hXi] at hXv
    rw [hYi] at hYv
    have hXr := hrange (0 + 2 * 2 ^ e * i + o) (by omega)
    have hYr := hrange (0 + 2 * 2 ^ e * i + (2 ^ e + o)) (by omega)
    have hdouble : (2 : Nat) ^ (s + 1) = 2 * 2 ^ s := by rw [pow_succ]; ring
    rcases Nat.mod_two_eq_zero_or_one b with hpar | hpar
    · -- even block: the X output
      have hbi : b = 2 * i := by omega
      have hrevb : reverseBits b (s + 1) = reverseBits i s := by
        rw [hbi]
        exact reverseBits_two_mul i s
      have hpos : b * 2 ^ e + o = 0 + 2 * 2 ^ e * i + o := by rw [hbi]; ring
      rw [hpos, blocksLoop_bf_in _ _ (2 ^ e) (2 ^ s) (2 ^ s) 0 v i o hilt (by omega),
        if_pos ho]
      have hYarg : 0 + 2 * 2 ^ e * i + o + 2 ^ e = 0 + 2 * 2 ^ e * i + (2 ^ e + o) := by
        omega
      rw [hYarg]
      have hF := (fwdF_spec hq hq62 hWlt hWp hXr hYr).2
      rw [hF, hXv, hYv, hWz, hdouble, sum_range_double (2 ^ s)
        (fun r' => (a (o + r' * 2 ^ e) : ZMod q) *
          z ^ ((2 * reverseBits b (s + 1) + 1) * (2 ^ e * r')))]
      congr 1
      · refine Finset.sum_congr rfl ?_
        intro r _
        have h1 : o + 2 * r * 2 ^ e = o + r * 2 ^ (e + 1) := by rw [hE]; ring
        have h2 : (2 * reverseBits b (s + 1) + 1) * (2 ^ e * (2 * r)) =
            (2 * reverseBits i s + 1) * (2 ^ (e + 1) * r) := by
          rw [hrevb, hE]
          ring
        rw [h1, h2]
      · rw [Finset.mul_sum]
        refine Finset.sum_congr rfl ?_
        intro r _
        have h1 : o + (2 * r + 1) * 2 ^ e = 2 ^ e + o + r * 2 ^ (e + 1) := by
          rw [hE]
          ring
        have h2 : (2 * reverseBits b (s + 1) + 1) * (2 ^ e * (2 * r + 1)) =
            (2 * reverseBits i s + 1) * (2 ^ (e + 1) * r) +
              (2 * reverseBits i s + 1) * 2 ^ e := by
          rw [hrevb, hE]
          ring
        rw [h1, h2, pow_add]
        ring
    · -- odd block: the Y output
      have hbi : b = 2 * i + 1 := by omega
      have hrevb : reverseBits b (s + 1) = 2 ^ s + reverseBits i s := by
        rw [hbi]
        exact reverseBits_two_mul_add_one i s
      have hpos : b * 2 ^ e + o = 0 + 2 * 2 ^ e * i + (2 ^ e + o) := by rw [hbi]; ring
      rw [hpos, blocksLoop_bf_in _ _ (2 ^ e) (2 ^ s) (2 ^ s) 0 v i (2 ^ e + o) hilt
        (by omega), if_neg (by omega : ¬(2 ^ e + o < 2 ^ e))]
      have hXarg : 0 + 2 * 2 ^ e * i + (2 ^ e + o) - 2 ^ e = 0 + 2 * 2 ^ e * i + o := by
        omega
      rw [hXarg]
      have hG := (fwdG_spec hq hq62 hWlt hWp hXr hYr).2
      rw [hG, hXv, hYv, hWz, hdouble, sum_range_double (2 ^ s)
        (fun r' => (a (o + r' * 2 ^ e) : ZMod q) *
          z ^ ((2 * reverseBits b (s + 1) + 1) * (2 ^ e * r')))]
      have hzn2 : z ^ (2 ^ (s + e + 1)) * z ^ (2 ^ (s + e + 1)) = 1 := by
        rw [hzn]
        ring
      have hbase : ∀ r' : Nat, z ^ ((2 * reverseBits b (s + 1) + 1) * (2 ^ e * r')) =
          z ^ ((2 * reverseBits i s + 1) * (2 ^ e * r')) * (z ^ (2 ^ (s + e + 1))) ^ r' := by
        intro r'
        rw [hrevb]
        have hsplit : (2 * (2 ^ s + reverseBits i s) + 1) * (2 ^ e * r') =
            (2 * reverseBits i s + 1) * (2 ^ e * r') + 2 ^ (s + e + 1) * r' := by
          have hpow : (2 : Nat) ^ (s + e + 1) = 2 * 2 ^ s * 2 ^ e := by
            rw [show s + e + 1 = s + 1 + e from by omega, pow_add, pow_succ]
            ring
          rw [hpow]
          ring
        rw [hsplit, pow_add, pow_mul z (2 ^ (s + e + 1)) r']
      have hsub : ∀ S T u : ZMod q, S - u * T = S + -(u * T) := by
        intro S T u
        ring
      rw [hsub]
      congr 1
      · refine Finset.sum_congr rfl ?_
        intro r _
        rw [hbase (2 * r)]
        have h1 : (z ^ (2 ^ (s + e + 1))) ^ (2 * r) = 1 := by
          rw [pow_mul, sq, hzn2, one_pow]
        rw [h1, mul_one]
        have h2 : o + 2 * r * 2 ^ e = o + r * 2 ^ (e + 1) := by rw [hE]; ring
        have h3 : (2 * reverseBits i s + 1) * (2 ^ e * (2 * r)) =
            (2 * reverseBits i s + 1) * (2 ^ (e + 1) * r) := by
          rw [hE]
          ring
        rw [h2, h3]
      · rw [Finset.mul_sum, ← Finset.sum_neg_distrib]
        refine Finset.sum_congr rfl ?_
        intro r _
        rw [hbase (2 * r + 1)]
        have h1 : (z ^ (2 ^ (s + e + 1))) ^ (2 * r + 1) = -1 := by
          rw [pow_succ, pow_mul, sq, hzn2, one_pow, one_mul, hzn]
        rw [h1]
        have h2 : o + (2 * r + 1) * 2 ^ e = 2 ^ e + o + r * 2 ^ (e + 1) := by
          rw [hE]
          ring
        have h3 : (2 * reverseBits i s + 1) * (2 ^ e * (2 * r + 1)) =
            (2 * reverseBits i s + 1) * (2 ^ (e + 1) * r) +
              (2 * reverseBits i s + 1) * 2 ^ e := by
          rw [hE]
          ring
        rw [h2, h3, pow_add]
        ring


/-! ## Lemmas: table accessors after a successful build -/

theorem table_root_powers {k q psi psiInv invDeg : Nat}
    (h1 : try_minimal_primitive_root (2 * 2 ^ k) q = some psi)
    (h2 : try_invert_uint_mod psi q = some psiInv)
    (h3 : try_invert_uint_mod (2 ^ k) q = some invDeg)
    (i : Nat) (hi : i < 2 ^ k) :
    (buildTable k q).get_from_root_powers i = psi ^ reverseBits i k % q ∧
    (buildTable k q).get_from_scaled_root_powers i =
      psi ^ reverseBits i k % q * 2 ^ 64 / q := by
  have hq1 : 1 < q := one_lt_q_of_root h1
  rw [buildTable_eq h1 h2 h3]
  unfold SmallNTTTables.get_from_root_powers SmallNTTTables.get_from_scaled_root_powers
  simp only []
  constructor
  · rw [ntt_powers_getD q psi k i hi, nttPowersFun_apply q psi k hq1 i hi]
  · unfold ntt_scale_powers_of_primitive_root
    rw [getD_map _ _ i (by rw [ntt_powers_length]; exact hi)]
    rw [ntt_powers_getD q psi k i hi, nttPowersFun_apply q psi k hq1 i hi]
    unfold divide_uint128_uint64_lo
    exact Nat.mod_eq_of_lt (divide_uint128_lt (by omega) (Nat.mod_lt _ (by omega))).2

theorem table_inv_root_cursor {k q psi psiInv invDeg : Nat}
    (h1 : try_minimal_primitive_root (2 * 2 ^ k) q = some psi)
    (h2 : try_invert_uint_mod psi q = some psiInv)
    (h3 : try_invert_uint_mod (2 ^ k) q = some invDeg)
    (s i : Nat) (hs : s < k) (hi : i < 2 ^ s) :
    (buildTable k q).get_from_inv_root_powers (2 ^ k - 2 ^ (s + 1) + 1 + i) =
      psiInv ^ reverseBits (2 ^ s + i) k % q ∧
    (buildTable k q).get_from_scaled_inv_root_powers (2 ^ k - 2 ^ (s + 1) + 1 + i) =
      psiInv ^ reverseBits (2 ^ s + i) k % q * 2 ^ 64 / q := by
  have hq1 : 1 < q := one_lt_q_of_root h1
  have hidx : 2 ^ s + i < 2 ^ k := by
    have hp1 : (2:Nat) ^ (s + 1) ≤ 2 ^ k := Nat.pow_le_pow_right (by norm_num) (by omega)
    have hp2 : (2:Nat) ^ (s + 1) = 2 * 2 ^ s := by rw [pow_succ]; ring
    omega
  rw [buildTable_eq h1 h2 h3]
  unfold SmallNTTTables.get_from_inv_root_powers SmallNTTTables.get_from_scaled_inv_root_powers
  simp only []
  constructor
  · rw [reorder_inv_getD _ k s i hs hi, ntt_powers_getD q psiInv k _ hidx,
      nttPowersFun_apply q psiInv k hq1 _ hidx]
  · rw [reorder_inv_getD _ k s i hs hi]
    unfold ntt_scale_powers_of_primitive_root
    rw [getD_map _ _ _ (by rw [ntt_powers_length]; exact hidx)]
    rw [ntt_powers_getD q psiInv k _ hidx, nttPowersFun_apply q psiInv k hq1 _ hidx]
    unfold divide_uint128_uint64_lo
    exact Nat.mod_eq_of_lt (divide_uint128_lt (by omega) (Nat.mod_lt _ (by omega))).2

/-! ## Lemmas: roots of unity in `ZMod q` -/

theorem root_cast_pow (q psi E : Nat) :
    ((psi ^ E % q : Nat) : ZMod q) = ((psi : ZMod q)) ^ E := by
  rw [ZMod.natCast_mod]
  push_cast
  rfl

/-- Transferring the primitivity certificate into `ZMod q`: the cast root
    satisfies `ζ^(2n) = 1` and `ζ^j ≠ 1` for `0 < j < 2n`. -/
theorem root_cast_prim {q m psi : Nat}
    (h : try_minimal_primitive_root m q = some psi) :
    ((psi : ZMod q)) ^ m = 1 ∧ ∀ j, j < m → 0 < j → ((psi : ZMod q)) ^ j ≠ 1 := by
  obtain ⟨hlt, h1, h2⟩ := try_root_spec h
  have hq1 : 1 < q := one_lt_q_of_root h
  constructor
  · rw [← root_cast_pow q psi m, h1, Nat.cast_one]
  · intro j hj hj0 hcontra
    apply h2 j hj hj0
    have hcast : ((psi ^ j % q : Nat) : ZMod q) = ((1 : Nat) : ZMod q) := by
      rw [root_cast_pow q psi j, hcontra, Nat.cast_one]
    have hval := congrArg ZMod.val hcast
    rw [ZMod.val_cast_of_lt (Nat.mod_lt _ (by omega)),
      ZMod.val_cast_of_lt (by omega : (1 : Nat) < q)] at hval
    exact hval

/-- For prime `q`, the primitive `2n`-th root satisfies `ζ^n = -1`. -/
theorem root_pow_n_eq_neg_one {q k psi : Nat} (hp : Nat.Prime q)
    (hr : try_minimal_primitive_root (2 * 2 ^ k) q = some psi) :
    ((psi : ZMod q)) ^ (2 ^ k) = -1 := by
  haveI : Fact (Nat.Prime q) := ⟨hp⟩
  obtain ⟨h1, h2⟩ := root_cast_prim hr
  have hn : (0 : Nat) < 2 ^ k := Nat.pos_pow_of_pos k (by norm_num)
  have hsq : ((psi : ZMod q) ^ (2 ^ k)) ^ 2 = 1 := by
    rw [← pow_mul, Nat.mul_comm]
    exact h1
  have hne : (psi : ZMod q) ^ (2 ^ k) ≠ 1 := h2 (2 ^ k) (by omega) hn
  have hfact : ((psi : ZMod q) ^ (2 ^ k) - 1) * ((psi : ZMod q) ^ (2 ^ k) + 1) = 0 := by
    have hx : ((psi : ZMod q) ^ (2 ^ k)) ^ 2 - 1 = 0 := by rw [hsq]; ring
    calc ((psi : ZMod q) ^ (2 ^ k) - 1) * ((psi : ZMod q) ^ (2 ^ k) + 1)
        = ((psi : ZMod q) ^ (2 ^ k)) ^ 2 - 1 := by ring
      _ = 0 := hx
  rcases mul_eq_zero.mp hfact with h | h
  · exact absurd (sub_eq_zero.mp h) hne
  · exact eq_neg_of_add_eq_zero_left h


/-! ## Lemmas: the forward pass -/

theorem fwdLoop_inv {q k : Nat} (hq : 0 < q) (hq62 : q < 2 ^ 62) (z : ZMod q)
    (W Wp a : Nat → Nat)
    (hzn : z ^ (2 ^ k) = -1)
    (hW : ∀ s' e' i, s' + e' + 1 = k → i < 2 ^ s' → W (2 ^ s' + i) < q ∧
        ((W (2 ^ s' + i) : Nat) : ZMod q) = z ^ ((2 * reverseBits i s' + 1) * 2 ^ e') ∧
        Wp (2 ^ s' + i) = W (2 ^ s' + i) * 2 ^ 64 / q) :
    ∀ e s v, s + e + 1 = k →
      inRange (2 ^ k) (4 * q) v → fwdCong q z a s (e + 1) v →
      inRange (2 ^ k) (4 * q) (fwdLoop q W Wp (e + 1) (2 ^ s) (2 ^ e) v) ∧
      fwdCong q z a k 0 (fwdLoop q W Wp (e + 1) (2 ^ s) (2 ^ e) v) := by
  intro e
  induction e with
  | zero =>
    intro s v hk hrange hcong
    show inRange (2 ^ k) (4 * q) (fwdStage q W Wp (2 ^ s) (2 ^ 0) v) ∧
      fwdCong q z a k 0 (fwdStage q W Wp (2 ^ s) (2 ^ 0) v)
    have hstage := fwdStage_inv hq hq62 z W Wp a s 0
      (show z ^ 2 ^ (s + 0 + 1) = -1 by rw [hk]; exact hzn)
      (fun i hi => hW s 0 i hk hi) v
      (show inRange (2 ^ (s + 0 + 1)) (4 * q) v by rw [hk]; exact hrange) hcong
    have hr := hstage.1
    have hc := hstage.2
    rw [hk] at hr
    have hs1 : s + 1 = k := by omega
    rw [hs1] at hc
    exact ⟨hr, hc⟩
  | succ e ih =>
    intro s v hk hrange hcong
    show inRange (2 ^ k) (4 * q)
        (fwdLoop q W Wp (e + 1) (2 * 2 ^ s) (2 ^ (e + 1) / 2)
          (fwdStage q W Wp (2 ^ s) (2 ^ (e + 1)) v)) ∧
      fwdCong q z a k 0
        (fwdLoop q W Wp (e + 1) (2 * 2 ^ s) (2 ^ (e + 1) / 2)
          (fwdStage q W Wp (2 ^ s) (2 ^ (e + 1)) v))
    have hm2 : 2 * 2 ^ s = 2 ^ (s + 1) := by rw [pow_succ]; ring
    have ht2 : 2 ^ (e + 1) / 2 = 2 ^ e := by
      rw [pow_succ]
      omega
    rw [hm2, ht2]
    have hstage := fwdStage_inv hq hq62 z W Wp a s (e + 1)
      (show z ^ 2 ^ (s + (e + 1) + 1) = -1 by rw [hk]; exact hzn)
      (fun i hi => hW s (e + 1) i hk hi) v
      (show inRange (2 ^ (s + (e + 1) + 1)) (4 * q) v by rw [hk]; exact hrange) hcong
    have hr := hstage.1
    rw [hk] at hr
    exact ih (s + 1) (fwdStage q W Wp (2 ^ s) (2 ^ (e + 1)) v) (by omega) hr hstage.2

/-- Full correctness of the forward pass over a successfully built table:
    entries stay below `4q` and each output position carries the negacyclic
    transform value at the bit-reversed odd root power. -/
theorem forward_ntt_spec {k q psi psiInv invDeg : Nat}
    (hk : 1 ≤ k) (hp : Nat.Prime q) (hq62 : q < 2 ^ 62)
    (h1 : try_minimal_primitive_root (2 * 2 ^ k) q = some psi)
    (h2 : try_invert_uint_mod psi q = some psiInv)
    (h3 : try_invert_uint_mod (2 ^ k) q = some invDeg)
    (a : Nat → Nat) (ha : inRange (2 ^ k) q a) :
    inRange (2 ^ k) (4 * q) (ntt_negacyclic_harvey_lazy (buildTable k q) a) ∧
    ∀ p, p < 2 ^ k →
      ((ntt_negacyclic_harvey_lazy (buildTable k q) a p : Nat) : ZMod q) =
        ∑ r ∈ Finset.range (2 ^ k),
          (a r : ZMod q) * ((psi : ZMod q)) ^ ((2 * reverseBits p k + 1) * r) := by
  have hq : 0 < q := hp.pos
  have hq1 : 1 < q := hp.one_lt
  have hzn := root_pow_n_eq_neg_one hp h1
  have htbl : ntt_negacyclic_harvey_lazy (buildTable k q) a =
      fwdLoop q (buildTable k q).get_from_root_powers
        (buildTable k q).get_from_scaled_root_powers k 1 (2 ^ k / 2) a := by
    unfold ntt_negacyclic_harvey_lazy
    rw [buildTable_eq h1 h2 h3]
  have hW : ∀ s' e' i, s' + e' + 1 = k → i < 2 ^ s' →
      (buildTable k q).get_from_root_powers (2 ^ s' + i) < q ∧
      (((buildTable k q).get_from_root_powers (2 ^ s' + i) : Nat) : ZMod q) =
        ((psi : ZMod q)) ^ ((2 * reverseBits i s' + 1) * 2 ^ e') ∧
      (buildTable k q).get_from_scaled_root_powers (2 ^ s' + i) =
        (buildTable k q).get_from_root_powers (2 ^ s' + i) * 2 ^ 64 / q := by
    intro s' e' i hk' hi
    have hidx : 2 ^ s' + i < 2 ^ k := by
      have hp1 : (2:Nat) ^ (s' + 1) ≤ 2 ^ k := Nat.pow_le_pow_right (by norm_num) (by omega)
      have hp2 : (2:Nat) ^ (s' + 1) = 2 * 2 ^ s' := by rw [pow_succ]; ring
      omega
    obtain ⟨hv, hsv⟩ := table_root_powers h1 h2 h3 (2 ^ s' + i) hidx
    have hrev := reverseBits_pow_add s' k i (by omega) hi
    have hsub : k - 1 - s' = e' := by omega
    refine ⟨by rw [hv]; exact Nat.mod_lt _ (by omega), ?_, by rw [hsv, hv]⟩
    rw [hv, root_cast_pow, hrev, hsub]
  have hinit : fwdCong q (psi : ZMod q) a 0 ((k - 1) + 1) a := by
    intro b hb o ho
    interval_cases b
    simp
  have hmain := fwdLoop_inv hq hq62 (psi : ZMod q)
    (buildTable k q).get_from_root_powers (buildTable k q).get_from_scaled_root_powers a
    hzn hW (k - 1) 0 a (by omega)
    (fun p hpp => lt_of_lt_of_le (ha p hpp) (by omega))
    hinit
  have htk : (2 : Nat) ^ (k - 1) = 2 ^ k / 2 := by
    obtain ⟨k', rfl⟩ : ∃ k', k = k' + 1 := ⟨k - 1, by omega⟩
    rw [pow_succ]
    norm_num
  have hfeq : (k - 1) + 1 = k := by omega
  have hmeq : (2 : Nat) ^ 0 = 1 := pow_zero 2
  rw [hfeq, hmeq, htk] at hmain
  rw [htbl]
  refine ⟨hmain.1, ?_⟩
  intro p hpp
  have hcall := hmain.2 p hpp 0 (by norm_num)
  have harg : p * 2 ^ 0 + 0 = p := by norm_num
  rw [harg] at hcall
  rw [hcall]
  refine Finset.sum_congr rfl ?_
  intro r _
  have he1 : 2 ^ 0 * r = r := by norm_num
  have he2 : 0 + r * 2 ^ 0 = r := by norm_num
  rw [he1, he2]


/-! ## Lemmas: the inverse stage -/

/-- An inverse stage written with the plain inner loop. -/
theorem invStage_eq_bf (q : Nat) (W Wp : Nat → Nat) (c m e : Nat) (v : Nat → Nat) :
    invStage q W Wp c m (2 ^ e) v =
      blocksLoop
        (fun r j1 => bfLoop (invF q) (invG q (W r) (Wp r)) (2 ^ e) j1 (2 ^ e))
        (2 * 2 ^ e) c 0 m v := by
  unfold invStage
  have hinner : (fun r j1 => invInner q (W r) (Wp r) (2 ^ e) j1) =
      (fun r j1 =>
        bfLoop (invF q) (invG q (W r) (Wp r)) (2 ^ e) j1 (2 ^ e)) := by
    funext r j1 v'
    exact invInner_eq_ref q (W r) (Wp r) e j1 v'
  rw [hinner]

/-- Low bits only: reversing `j < 2^e` over `e+1` bits doubles the reversal. -/
theorem reverseBits_low (e j : Nat) (hj : j < 2 ^ e) :
    reverseBits j (e + 1) = 2 * reverseBits j e := by
  have h := reverseBits_high e 0 j (by norm_num) hj
  simpa using h

theorem reverseBits_top (e j : Nat) (hj : j < 2 ^ e) :
    reverseBits (2 ^ e + j) (e + 1) = 2 * reverseBits j e + 1 := by
  have h := reverseBits_high e 1 j (by norm_num) hj
  simpa using h

/-- One inverse stage preserves the `< 2q` range and merges the partial
    inverse-transform invariant one level up. -/
theorem invStage_inv {q : Nat} (hq : 0 < q) (hq62 : q < 2 ^ 62) (x : ZMod q)
    (W Wp A : Nat → Nat) (c s e : Nat)
    (hxn : x ^ (2 ^ (s + e + 1)) = -1)
    (hW : ∀ i, i < 2 ^ s → W (c + i) < q ∧
        ((W (c + i) : Nat) : ZMod q) = x ^ ((2 * reverseBits i s + 1) * 2 ^ e) ∧
        Wp (c + i) = W (c + i) * 2 ^ 64 / q)
    (v : Nat → Nat)
    (hrange : inRange (2 ^ (s + e + 1)) (2 * q) v)
    (hcong : invCong q x A (s + 1) e v) :
    inRange (2 ^ (s + e + 1)) (2 * q) (invStage q W Wp c (2 ^ s) (2 ^ e) v) ∧
    invCong q x A s (e + 1) (invStage q W Wp c (2 ^ s) (2 ^ e) v) := by
  have ht : (0 : Nat) < 2 ^ e := Nat.pos_pow_of_pos e (by norm_num)
  have hm : (0 : Nat) < 2 ^ s := Nat.pos_pow_of_pos s (by norm_num)
  have htot : (2 : Nat) ^ s * (2 * 2 ^ e) = 2 ^ (s + e + 1) := by
    rw [show s + e + 1 = s + (e + 1) from rfl, pow_add, pow_succ]
    ring
  have hE : (2 : Nat) ^ (e + 1) = 2 * 2 ^ e := by rw [pow_succ]; ring
  have hblock : ∀ i, i < 2 ^ s → 2 * 2 ^ e * i + 2 * 2 ^ e ≤ 2 ^ (s + e + 1) := by
    intro i hilt
    have h3 : 2 * 2 ^ e * (i + 1) ≤ 2 * 2 ^ e * 2 ^ s :=
      Nat.mul_le_mul_left _ (by omega)
    have h2 : 2 * 2 ^ e * (i + 1) = 2 * 2 ^ e * i + 2 * 2 ^ e := by ring
    have h4 : 2 * 2 ^ e * 2 ^ s = 2 ^ s * (2 * 2 ^ e) := by ring
    omega
  rw [invStage_eq_bf]
  constructor
  · -- range
    intro p hp
    have hdm := Nat.div_add_mod p (2 * 2 ^ e)
    set i := p / (2 * 2 ^ e) with hi
    set w := p % (2 * 2 ^ e) with hw'
    have hwlt : w < 2 * 2 ^ e := Nat.mod_lt _ (by omega)
    have hilt : i < 2 ^ s := by
      rw [hi, Nat.div_lt_iff_lt_mul (by omega : 0 < 2 * 2 ^ e), htot]
      exact hp
    have hbl := hblock i hilt
    have hpos : p = 0 + 2 * 2 ^ e * i + w := by omega
    rw [hpos, blocksLoop_bf_in _ _ (2 ^ e) (2 ^ s) c 0 v i w hilt hwlt]
    obtain ⟨hWlt, _, hWp⟩ := hW i hilt
    by_cases hwt : w < 2 ^ e
    · rw [if_pos hwt]
      exact (invF_spec hq62 (hrange _ (by omega)) (hrange _ (by omega))).1
    · rw [if_neg hwt]
      exact (invG_spec hq hq62 hWlt hWp (hrange _ (by omega)) (hrange _ (by omega))).1
  · -- congruence invariant
    intro b hb o ho
    obtain ⟨hWlt, hWx, hWp⟩ := hW b hb
    have hbl := hblock b hb
    have hXpos : 0 + 2 * 2 ^ e * b + o < 2 ^ (s + e + 1) := by omega
    have hXv := hcong (2 * b) (by
      have hds : (2 : Nat) ^ (s + 1) = 2 ^ s * 2 := pow_succ 2 s
      omega)
    have hYv := hcong (2 * b + 1) (by
      have hds : (2 : Nat) ^ (s + 1) = 2 ^ s * 2 := pow_succ 2 s
      omega)
    have hrev2b : reverseBits (2 * b) (s + 1) = reverseBits b s := reverseBits_two_mul b s
    have hrev2b1 : reverseBits (2 * b + 1) (s + 1) = 2 ^ s + reverseBits b s :=
      reverseBits_two_mul_add_one b s
    have hx2 : x ^ (2 ^ (s + e + 1)) * x ^ (2 ^ (s + e + 1)) = 1 := by
      rw [hxn]
      ring
    have hEsplit : (2 : Nat) ^ (e + 1) = 2 ^ e + 2 ^ e := by omega
    by_cases hwt : o < 2 ^ e
    · -- X output of the block
      have hpos : b * 2 ^ (e + 1) + o = 0 + 2 * 2 ^ e * b + o := by rw [hE]; ring
      rw [hpos, blocksLoop_bf_in _ _ (2 ^ e) (2 ^ s) c 0 v b o hb (by omega),
        if_pos hwt]
      have hXi : 0 + 2 * 2 ^ e * b + o = 2 * b * 2 ^ e + o := by ring
      have hYi : 0 + 2 * 2 ^ e * b + o + 2 ^ e = (2 * b + 1) * 2 ^ e + o := by ring
      have hXr : v (0 + 2 * 2 ^ e * b + o) < 2 * q := hrange _ (by omega)
      have hYr : v (0 + 2 * 2 ^ e * b + o + 2 ^ e) < 2 * q := hrange _ (by omega)
      have hF := (invF_spec hq62 hXr hYr).2
      rw [hF]
      rw [show v (0 + 2 * 2 ^ e * b + o) = v (2 * b * 2 ^ e + o) from by rw [hXi],
        show v (0 + 2 * 2 ^ e * b + o + 2 ^ e) = v ((2 * b + 1) * 2 ^ e + o) from by
          rw [hYi]]
      rw [hXv o hwt, hYv o hwt, hEsplit,
        Finset.sum_range_add (fun j => (A (b * (2 ^ e + 2 ^ e) + j) : ZMod q) *
          x ^ ((2 * (reverseBits b s + 2 ^ s * reverseBits j (e + 1)) + 1) * o)) (2 ^ e) (2 ^ e)]
      congr 1
      · refine Finset.sum_congr rfl ?_
        intro j hj
        have hjlt : j < 2 ^ e := Finset.mem_range.mp hj
        have hidx : b * (2 ^ e + 2 ^ e) + j = 2 * b * 2 ^ e + j := by ring
        have hexp : 2 * (reverseBits b s + 2 ^ s * reverseBits j (e + 1)) + 1 =
            2 * (reverseBits (2 * b) (s + 1) + 2 ^ (s + 1) * reverseBits j e) + 1 := by
          rw [hrev2b, reverseBits_low e j hjlt, pow_succ]
          ring
        rw [hidx, hexp]
      · refine Finset.sum_congr rfl ?_
        intro j hj
        have hjlt : j < 2 ^ e := Finset.mem_range.mp hj
        have hidx : b * (2 ^ e + 2 ^ e) + (2 ^ e + j) = (2 * b + 1) * 2 ^ e + j := by ring
        have hexp : 2 * (reverseBits b s + 2 ^ s * reverseBits (2 ^ e + j) (e + 1)) + 1 =
            2 * (reverseBits (2 * b + 1) (s + 1) + 2 ^ (s + 1) * reverseBits j e) + 1 := by
          rw [hrev2b1, reverseBits_top e j hjlt, pow_succ]
          ring
        rw [hidx, hexp]
    · -- Y output of the block
      obtain ⟨o', rfl⟩ : ∃ o', o = 2 ^ e + o' := ⟨o - 2 ^ e, by omega⟩
      have ho' : o' < 2 ^ e := by omega
      have hpos : b * 2 ^ (e + 1) + (2 ^ e + o') = 0 + 2 * 2 ^ e * b + (2 ^ e + o') := by
        rw [hE]
        ring
      rw [hpos, blocksLoop_bf_in _ _ (2 ^ e) (2 ^ s) c 0 v b (2 ^ e + o') hb (by omega),
        if_neg (by omega : ¬(2 ^ e + o' < 2 ^ e))]
      have hXi : 0 + 2 * 2 ^ e * b + (2 ^ e + o') - 2 ^ e = 2 * b * 2 ^ e + o' := by
        have h9 : 0 + 2 * 2 ^ e * b + (2 ^ e + o') = 2 * b * 2 ^ e + o' + 2 ^ e := by ring
        omega
      have hYi : 0 + 2 * 2 ^ e * b + (2 ^ e + o') = (2 * b + 1) * 2 ^ e + o' := by ring
      have hXr : v (0 + 2 * 2 ^ e * b + (2 ^ e + o') - 2 ^ e) < 2 * q := hrange _ (by omega)
      have hYr : v (0 + 2 * 2 ^ e * b + (2 ^ e + o')) < 2 * q := hrange _ (by omega)
      have hG := (invG_spec hq hq62 hWlt hWp hXr hYr).2
      rw [hG]
      rw [show v (0 + 2 * 2 ^ e * b + (2 ^ e + o') - 2 ^ e) = v (2 * b * 2 ^ e + o') from by
          rw [hXi],
        show v (0 + 2 * 2 ^ e * b + (2 ^ e + o')) = v ((2 * b + 1) * 2 ^ e + o') from by
          rw [hYi]]
      rw [hXv o' ho', hYv o' ho', hWx, hEsplit,
        Finset.sum_range_add (fun j => (A (b * (2 ^ e + 2 ^ e) + j) : ZMod q) *
          x ^ ((2 * (reverseBits b s + 2 ^ s * reverseBits j (e + 1)) + 1) * (2 ^ e + o')))
          (2 ^ e) (2 ^ e)]
      rw [mul_sub, Finset.mul_sum, Finset.mul_sum]
      have hsplitsub : ∀ S T : ZMod q, S - T = S + -T := fun S T => by ring
      rw [hsplitsub, ← Finset.sum_neg_distrib]
      have hP1 : (2 : Nat) ^ (s + 1) = 2 * 2 ^ s := by rw [pow_succ]; ring
      have hP2 : (2 : Nat) ^ (s + e + 1) = 2 ^ s * 2 ^ e * 2 := by
        rw [pow_add, pow_add, pow_one]
      have hxpow_even : ∀ rj : Nat, x ^ (2 ^ (s + e + 1) * (2 * rj)) = 1 := by
        intro rj
        rw [show 2 ^ (s + e + 1) * (2 * rj) =
            (2 ^ (s + e + 1) + 2 ^ (s + e + 1)) * rj from by ring,
          pow_mul, pow_add, hx2, one_pow]
      have hxpow_odd : ∀ rj : Nat, x ^ (2 ^ (s + e + 1) * (2 * rj + 1)) = -1 := by
        intro rj
        rw [show 2 ^ (s + e + 1) * (2 * rj + 1) =
            (2 ^ (s + e + 1) + 2 ^ (s + e + 1)) * rj + 2 ^ (s + e + 1) from by ring,
          pow_add, pow_mul, pow_add, hx2, one_pow, one_mul, hxn]
      congr 1
      · -- first half: coefficient picks up exactly the root power
        refine Finset.sum_congr rfl ?_
        intro j hj
        have hjlt : j < 2 ^ e := Finset.mem_range.mp hj
        have hidx : b * (2 ^ e + 2 ^ e) + j = 2 * b * 2 ^ e + j := by ring
        have hexp : (2 * (reverseBits b s + 2 ^ s * reverseBits j (e + 1)) + 1) *
              (2 ^ e + o') =
            ((2 * reverseBits b s + 1) * 2 ^ e +
              (2 * (reverseBits (2 * b) (s + 1) + 2 ^ (s + 1) * reverseBits j e) + 1) * o') +
              2 ^ (s + e + 1) * (2 * reverseBits j e) := by
          rw [hrev2b, reverseBits_low e j hjlt, hP1, hP2]
          ring
        rw [hidx, hexp, pow_add x, hxpow_even (reverseBits j e), mul_one]
        ring
      · -- second half: the sign flips through `x^n = -1`
        refine Finset.sum_congr rfl ?_
        intro j hj
        have hjlt : j < 2 ^ e := Finset.mem_range.mp hj
        have hidx : b * (2 ^ e + 2 ^ e) + (2 ^ e + j) = (2 * b + 1) * 2 ^ e + j := by ring
        have hexp : (2 * (reverseBits b s + 2 ^ s * reverseBits (2 ^ e + j) (e + 1)) + 1) *
              (2 ^ e + o') =
            ((2 * reverseBits b s + 1) * 2 ^ e +
              (2 * (reverseBits (2 * b + 1) (s + 1) + 2 ^ (s + 1) * reverseBits j e) + 1)
                * o') +
              2 ^ (s + e + 1) * (2 * reverseBits j e + 1) := by
          rw [hrev2b1, reverseBits_top e j hjlt, hP1, hP2]
          ring
        rw [hidx, hexp, pow_add x, hxpow_odd (reverseBits j e)]
        ring


/-- The main inverse loop: its `k-1` stages take the trivial block invariant
    on the input down to two half-length blocks, with the root cursor ending
    at `2^k - 1`. -/
theorem invLoop_inv {q k : Nat} (hq : 0 < q) (hq62 : q < 2 ^ 62) (x : ZMod q)
    (W Wp A : Nat → Nat)
    (hxn : x ^ (2 ^ k) = -1)
    (hW : ∀ s i, 0 < s → s + 1 ≤ k → i < 2 ^ s →
      W (2 ^ k - 2 ^ (s + 1) + 1 + i) < q ∧
      ((W (2 ^ k - 2 ^ (s + 1) + 1 + i) : Nat) : ZMod q) =
        x ^ ((2 * reverseBits i s + 1) * 2 ^ (k - 1 - s)) ∧
      Wp (2 ^ k - 2 ^ (s + 1) + 1 + i) = W (2 ^ k - 2 ^ (s + 1) + 1 + i) * 2 ^ 64 / q) :
    ∀ f e v, f + e + 1 = k →
      inRange (2 ^ k) (2 * q) v →
      invCong q x A (f + 1) e v →
      inRange (2 ^ k) (2 * q)
          (invLoop q W Wp f (2 ^ f) (2 ^ e) (2 ^ k - 2 ^ (f + 1) + 1) v).1 ∧
        invCong q x A 1 (k - 1)
          (invLoop q W Wp f (2 ^ f) (2 ^ e) (2 ^ k - 2 ^ (f + 1) + 1) v).1 ∧
        (invLoop q W Wp f (2 ^ f) (2 ^ e) (2 ^ k - 2 ^ (f + 1) + 1) v).2 = 2 ^ k - 1 := by
  intro f
  induction f with
  | zero =>
    intro e v hke hrange hcong
    have he : e = k - 1 := by omega
    have h2k : (2 : Nat) ^ 1 ≤ 2 ^ k := Nat.pow_le_pow_right (by norm_num) (by omega)
    have h01 : (2 : Nat) ^ (0 + 1) = 2 := by norm_num
    have h11 : (2 : Nat) ^ 1 = 2 := by norm_num
    refine ⟨hrange, ?_, ?_⟩
    · rw [← he]
      exact hcong
    · show 2 ^ k - 2 ^ (0 + 1) + 1 = 2 ^ k - 1
      omega
  | succ f ih =>
    intro e v hke hrange hcong
    have hksum : f + 1 + e + 1 = k := by omega
    have hstep : invLoop q W Wp (f + 1) (2 ^ (f + 1)) (2 ^ e)
          (2 ^ k - 2 ^ (f + 1 + 1) + 1) v =
        invLoop q W Wp f (2 ^ (f + 1) / 2) (2 * 2 ^ e)
          (2 ^ k - 2 ^ (f + 1 + 1) + 1 + 2 ^ (f + 1))
          (invStage q W Wp (2 ^ k - 2 ^ (f + 1 + 1) + 1) (2 ^ (f + 1)) (2 ^ e) v) := rfl
    have hdiv : 2 ^ (f + 1) / 2 = 2 ^ f := by
      rw [pow_succ]
      exact Nat.mul_div_cancel _ (by norm_num)
    have hmul : 2 * 2 ^ e = 2 ^ (e + 1) := by
      rw [pow_succ]
      ring
    have hcur : 2 ^ k - 2 ^ (f + 1 + 1) + 1 + 2 ^ (f + 1) = 2 ^ k - 2 ^ (f + 1) + 1 := by
      have hpw : (2 : Nat) ^ (f + 1 + 1) = 2 ^ (f + 1) + 2 ^ (f + 1) := by
        rw [pow_succ]
        ring
      have hle : (2 : Nat) ^ (f + 1 + 1) ≤ 2 ^ k := Nat.pow_le_pow_right (by norm_num) (by omega)
      rw [hpw] at hle ⊢
      generalize (2 : Nat) ^ (f + 1) = a at hle ⊢
      generalize (2 : Nat) ^ k = N at hle ⊢
      omega
    have hxn2 : x ^ (2 ^ (f + 1 + e + 1)) = -1 := by
      rw [hksum]
      exact hxn
    have hW2 : ∀ i, i < 2 ^ (f + 1) →
        W (2 ^ k - 2 ^ (f + 1 + 1) + 1 + i) < q ∧
        ((W (2 ^ k - 2 ^ (f + 1 + 1) + 1 + i) : Nat) : ZMod q) =
          x ^ ((2 * reverseBits i (f + 1) + 1) * 2 ^ e) ∧
        Wp (2 ^ k - 2 ^ (f + 1 + 1) + 1 + i) =
          W (2 ^ k - 2 ^ (f + 1 + 1) + 1 + i) * 2 ^ 64 / q := by
      intro i hi
      have h := hW (f + 1) i (by omega) (by omega) hi
      have hek : k - 1 - (f + 1) = e := by omega
      rw [hek] at h
      exact h
    have hrange2 : inRange (2 ^ (f + 1 + e + 1)) (2 * q) v := by
      intro p hp
      refine hrange p ?_
      rw [hksum] at hp
      exact hp
    have hstage := invStage_inv hq hq62 x W Wp A (2 ^ k - 2 ^ (f + 1 + 1) + 1) (f + 1) e
      hxn2 hW2 v hrange2 hcong
    have hrs : inRange (2 ^ k) (2 * q)
        (invStage q W Wp (2 ^ k - 2 ^ (f + 1 + 1) + 1) (2 ^ (f + 1)) (2 ^ e) v) := by
      intro p hp
      refine hstage.1 p ?_
      rw [hksum]
      exact hp
    have hmain := ih (e + 1)
      (invStage q W Wp (2 ^ k - 2 ^ (f + 1 + 1) + 1) (2 ^ (f + 1)) (2 ^ e) v)
      (by omega) hrs hstage.2
    rw [hstep, hdiv, hmul, hcur]
    exact hmain


/-- The merged final stage of the inverse pass: the last Gentleman–Sande
    level with the `n⁻¹` factor folded into both butterfly multipliers turns
    the two-block invariant into the complete scaled inverse transform. -/
theorem invFinal_inv {q k : Nat} (hq : 0 < q) (hq62 : q < 2 ^ 62) (x : ZMod q)
    (A : Nat → Nat) (iN iNp iNW iNWp : Nat) (hk : 1 ≤ k)
    (hxn : x ^ (2 ^ k) = -1)
    (hiN : iN < q) (hiNp : iNp = iN * 2 ^ 64 / q)
    (hiNW : iNW < q) (hiNWp : iNWp = iNW * 2 ^ 64 / q)
    (hiNWx : ((iNW : Nat) : ZMod q) = ((iN : Nat) : ZMod q) * x ^ (2 ^ (k - 1)))
    (v : Nat → Nat)
    (hrange : inRange (2 ^ k) (2 * q) v)
    (hcong : invCong q x A 1 (k - 1) v) :
    inRange (2 ^ k) (2 * q)
        (bfLoop (invFinalF q iN iNp) (invFinalG q iNW iNWp) (2 ^ (k - 1)) 0 (2 ^ (k - 1)) v) ∧
    ∀ p, p < 2 ^ k →
      ((bfLoop (invFinalF q iN iNp) (invFinalG q iNW iNWp) (2 ^ (k - 1)) 0 (2 ^ (k - 1)) v p
          : Nat) : ZMod q) =
        ((iN : Nat) : ZMod q) *
          ∑ J ∈ Finset.range (2 ^ k),
            (A J : ZMod q) * x ^ ((2 * reverseBits J k + 1) * p) := by
  have hk1 : k - 1 + 1 = k := by omega
  have hPk : (2 : Nat) ^ k = 2 ^ (k - 1) * 2 := by
    rw [← pow_succ]
    rw [hk1]
  have hh2 : (2 : Nat) ^ (k - 1) + 2 ^ (k - 1) = 2 ^ k := by omega
  have hrev01 : reverseBits 0 1 = 0 := by decide
  have hrev11 : reverseBits 1 1 = 1 := by decide
  have hrevL : ∀ j, j < 2 ^ (k - 1) → reverseBits j k = 2 * reverseBits j (k - 1) := by
    intro j hj
    have h := reverseBits_low (k - 1) j hj
    rwa [hk1] at h
  have hrevT : ∀ j, j < 2 ^ (k - 1) →
      reverseBits (2 ^ (k - 1) + j) k = 2 * reverseBits j (k - 1) + 1 := by
    intro j hj
    have h := reverseBits_top (k - 1) j hj
    rwa [hk1] at h
  have hx2 : x ^ (2 ^ k) * x ^ (2 ^ k) = 1 := by
    rw [hxn]
    ring
  have hxeven : ∀ r : Nat, x ^ (2 ^ k * (2 * r)) = 1 := by
    intro r
    rw [show 2 ^ k * (2 * r) = (2 ^ k + 2 ^ k) * r from by ring, pow_mul, pow_add, hx2,
      one_pow]
  have hxodd : ∀ r : Nat, x ^ (2 ^ k * (2 * r + 1)) = -1 := by
    intro r
    rw [show 2 ^ k * (2 * r + 1) = (2 ^ k + 2 ^ k) * r + 2 ^ k from by ring, pow_add,
      pow_mul, pow_add, hx2, one_pow, one_mul, hxn]
  constructor
  · -- range
    intro p hp
    rw [bfLoop_eval (invFinalF q iN iNp) (invFinalG q iNW iNWp) (2 ^ (k - 1)) (2 ^ (k - 1))
      0 v p le_rfl]
    by_cases hpl : p < 2 ^ (k - 1)
    · rw [if_pos (show 0 ≤ p ∧ p < 0 + 2 ^ (k - 1) from by omega)]
      exact (invFinalF_spec hq hq62 hiN hiNp (hrange p (by omega))
        (hrange (p + 2 ^ (k - 1)) (by omega))).1
    · rw [if_neg (show ¬(0 ≤ p ∧ p < 0 + 2 ^ (k - 1)) from by omega),
        if_pos (show 0 + 2 ^ (k - 1) ≤ p ∧ p < 0 + 2 ^ (k - 1) + 2 ^ (k - 1) from by omega)]
      exact (invFinalG_spec hq hq62 hiNW hiNWp (hrange (p - 2 ^ (k - 1)) (by omega))
        (hrange p (by omega))).1
  · -- the transform identity
    intro p hp
    rw [bfLoop_eval (invFinalF q iN iNp) (invFinalG q iNW iNWp) (2 ^ (k - 1)) (2 ^ (k - 1))
      0 v p le_rfl]
    by_cases hpl : p < 2 ^ (k - 1)
    · rw [if_pos (show 0 ≤ p ∧ p < 0 + 2 ^ (k - 1) from by omega)]
      have hF := (invFinalF_spec hq hq62 hiN hiNp (hrange p (by omega))
        (hrange (p + 2 ^ (k - 1)) (by omega))).2
      rw [hF]
      have hvp := hcong 0 (by norm_num) p hpl
      rw [show (0 : Nat) * 2 ^ (k - 1) + p = p from by ring] at hvp
      have hvq := hcong 1 (by norm_num) p hpl
      rw [show (1 : Nat) * 2 ^ (k - 1) + p = p + 2 ^ (k - 1) from by ring] at hvq
      rw [hvp, hvq, ← hh2,
        Finset.sum_range_add
          (fun J => (A J : ZMod q) * x ^ ((2 * reverseBits J k + 1) * p))
          (2 ^ (k - 1)) (2 ^ (k - 1))]
      congr 1
      congr 1
      · refine Finset.sum_congr rfl ?_
        intro j hj
        have hjlt : j < 2 ^ (k - 1) := Finset.mem_range.mp hj
        rw [show (0 : Nat) * 2 ^ (k - 1) + j = j from by ring, hrevL j hjlt, hrev01]
        ring
      · refine Finset.sum_congr rfl ?_
        intro j hj
        have hjlt : j < 2 ^ (k - 1) := Finset.mem_range.mp hj
        rw [show (1 : Nat) * 2 ^ (k - 1) + j = 2 ^ (k - 1) + j from by ring,
          hrevT j hjlt, hrev11]
        ring
    · rw [if_neg (show ¬(0 ≤ p ∧ p < 0 + 2 ^ (k - 1)) from by omega),
        if_pos (show 0 + 2 ^ (k - 1) ≤ p ∧ p < 0 + 2 ^ (k - 1) + 2 ^ (k - 1) from by omega)]
      obtain ⟨q', rfl⟩ : ∃ q', p = 2 ^ (k - 1) + q' := ⟨p - 2 ^ (k - 1), by omega⟩
      have hp' : q' < 2 ^ (k - 1) := by omega
      rw [show 2 ^ (k - 1) + q' - 2 ^ (k - 1) = q' from by omega]
      have hG := (invFinalG_spec hq hq62 hiNW hiNWp (hrange q' (by omega))
        (hrange (2 ^ (k - 1) + q') (by omega))).2
      rw [hG, hiNWx]
      have hvp := hcong 0 (by norm_num) q' hp'
      rw [show (0 : Nat) * 2 ^ (k - 1) + q' = q' from by ring] at hvp
      have hvq := hcong 1 (by norm_num) q' hp'
      rw [show (1 : Nat) * 2 ^ (k - 1) + q' = 2 ^ (k - 1) + q' from by ring] at hvq
      have hexpA : ∀ r : Nat, (2 * (2 * r) + 1) * (2 ^ (k - 1) + q') =
          (2 ^ (k - 1) + (2 * (2 * r) + 1) * q') + 2 ^ k * (2 * r) := by
        intro r
        rw [hPk]
        ring
      have hexpB : ∀ r : Nat, (2 * (2 * r + 1) + 1) * (2 ^ (k - 1) + q') =
          (2 ^ (k - 1) + (2 * (2 * r + 1) + 1) * q') + 2 ^ k * (2 * r + 1) := by
        intro r
        rw [hPk]
        ring
      rw [hvp, hvq, ← hh2,
        Finset.sum_range_add
          (fun J => (A J : ZMod q) * x ^ ((2 * reverseBits J k + 1) * (2 ^ (k - 1) + q')))
          (2 ^ (k - 1)) (2 ^ (k - 1))]
      rw [mul_sub, Finset.mul_sum, Finset.mul_sum, sub_eq_add_neg, ← Finset.sum_neg_distrib,
        mul_add, Finset.mul_sum, Finset.mul_sum]
      congr 1
      · refine Finset.sum_congr rfl ?_
        intro j hj
        have hjlt : j < 2 ^ (k - 1) := Finset.mem_range.mp hj
        rw [show (0 : Nat) * 2 ^ (k - 1) + j = j from by ring, hrevL j hjlt, hrev01,
          hexpA (reverseBits j (k - 1)), pow_add x, hxeven (reverseBits j (k - 1)), mul_one]
        ring
      · refine Finset.sum_congr rfl ?_
        intro j hj
        have hjlt : j < 2 ^ (k - 1) := Finset.mem_range.mp hj
        rw [show (1 : Nat) * 2 ^ (k - 1) + j = 2 ^ (k - 1) + j from by ring,
          hrevT j hjlt, hrev11, hexpB (reverseBits j (k - 1)), pow_add x,
          hxodd (reverseBits j (k - 1))]
        ring


/-- The inverse pass on a successfully built table: outputs stay in `[0, 2q)`
    and compute the `n⁻¹`-scaled inverse negacyclic transform at the odd
    powers of the inverse root. -/
theorem inverse_ntt_spec {k q psi psiInv invDeg : Nat}
    (hk : 1 ≤ k) (hp : Nat.Prime q) (hq62 : q < 2 ^ 62)
    (h1 : try_minimal_primitive_root (2 * 2 ^ k) q = some psi)
    (h2 : try_invert_uint_mod psi q = some psiInv)
    (h3 : try_invert_uint_mod (2 ^ k) q = some invDeg)
    (A : Nat → Nat) (hA : inRange (2 ^ k) (2 * q) A) :
    inRange (2 ^ k) (2 * q) (inverse_ntt_negacyclic_harvey_lazy (buildTable k q) A) ∧
    ∀ p, p < 2 ^ k →
      ((inverse_ntt_negacyclic_harvey_lazy (buildTable k q) A p : Nat) : ZMod q) =
        ((invDeg : Nat) : ZMod q) *
          ∑ j ∈ Finset.range (2 ^ k),
            (A j : ZMod q) * ((psiInv : ZMod q)) ^ ((2 * reverseBits j k + 1) * p) := by
  have hq : 0 < q := hp.pos
  have hq1 : 1 < q := hp.one_lt
  have hk1 : k - 1 + 1 = k := by omega
  have hzn := root_pow_n_eq_neg_one hp h1
  have hprod : ((psi : ZMod q)) * ((psiInv : ZMod q)) = 1 := by
    obtain ⟨hmod, _⟩ := try_invert_spec h2
    have hcast : ((psi * psiInv % q : Nat) : ZMod q) = ((1 : Nat) : ZMod q) := by rw [hmod]
    rw [ZMod.natCast_mod, Nat.cast_mul, Nat.cast_one] at hcast
    exact hcast
  have hxn : ((psiInv : ZMod q)) ^ (2 ^ k) = -1 := by
    have hzx : (((psi : ZMod q)) * ((psiInv : ZMod q))) ^ (2 ^ k) = 1 := by
      rw [hprod]
      exact one_pow _
    rw [mul_pow, hzn] at hzx
    calc ((psiInv : ZMod q)) ^ (2 ^ k)
        = -((-1) * ((psiInv : ZMod q)) ^ (2 ^ k)) := by ring
      _ = -1 := by rw [hzx]
  have hrev1 : reverseBits 1 k = 2 ^ (k - 1) := by
    have h := reverseBits_pow_add 0 k 0 (by omega) (by norm_num)
    rw [show (2 : Nat) ^ 0 + 0 = 1 from by norm_num,
      show reverseBits 0 0 = 0 from rfl] at h
    rw [h]
    norm_num
  have htbl : inverse_ntt_negacyclic_harvey_lazy (buildTable k q) A =
      bfLoop
        (invFinalF q invDeg (divide_uint128_uint64_lo invDeg q))
        (invFinalG q
          (multiply_uint_uint_mod invDeg
            ((buildTable k q).get_from_inv_root_powers
              (invLoop q (buildTable k q).get_from_inv_root_powers
                (buildTable k q).get_from_scaled_inv_root_powers
                (k - 1) (2 ^ k / 2) 1 1 A).2) q)
          (divide_uint128_uint64_lo
            (multiply_uint_uint_mod invDeg
              ((buildTable k q).get_from_inv_root_powers
                (invLoop q (buildTable k q).get_from_inv_root_powers
                  (buildTable k q).get_from_scaled_inv_root_powers
                  (k - 1) (2 ^ k / 2) 1 1 A).2) q)
            q))
        (2 ^ k / 2) 0 (2 ^ k - 2 ^ k / 2)
        (invLoop q (buildTable k q).get_from_inv_root_powers
          (buildTable k q).get_from_scaled_inv_root_powers
          (k - 1) (2 ^ k / 2) 1 1 A).1 := by
    unfold inverse_ntt_negacyclic_harvey_lazy
    rw [buildTable_eq h1 h2 h3]
  have htk : (2 : Nat) ^ (k - 1) = 2 ^ k / 2 := by
    obtain ⟨k', rfl⟩ : ∃ k', k = k' + 1 := ⟨k - 1, by omega⟩
    rw [pow_succ]
    norm_num
  rw [← htk] at htbl
  have hPk : (2 : Nat) ^ k = 2 ^ (k - 1) * 2 := by
    rw [← pow_succ]
    rw [hk1]
  have hcnt : (2 : Nat) ^ k - 2 ^ (k - 1) = 2 ^ (k - 1) := by omega
  rw [hcnt] at htbl
  have hW : ∀ s i, 0 < s → s + 1 ≤ k → i < 2 ^ s →
      (buildTable k q).get_from_inv_root_powers (2 ^ k - 2 ^ (s + 1) + 1 + i) < q ∧
      (((buildTable k q).get_from_inv_root_powers (2 ^ k - 2 ^ (s + 1) + 1 + i) : Nat)
          : ZMod q) =
        ((psiInv : ZMod q)) ^ ((2 * reverseBits i s + 1) * 2 ^ (k - 1 - s)) ∧
      (buildTable k q).get_from_scaled_inv_root_powers (2 ^ k - 2 ^ (s + 1) + 1 + i) =
        (buildTable k q).get_from_inv_root_powers (2 ^ k - 2 ^ (s + 1) + 1 + i)
          * 2 ^ 64 / q := by
    intro s i hs hsk hi
    obtain ⟨hv, hsv⟩ := table_inv_root_cursor h1 h2 h3 s i (by omega) hi
    have hrev := reverseBits_pow_add s k i (by omega) hi
    refine ⟨by rw [hv]; exact Nat.mod_lt _ (by omega), ?_, by rw [hsv, hv]⟩
    rw [hv, root_cast_pow, hrev]
  have hinit : invCong q ((psiInv : ZMod q)) A (k - 1 + 1) 0 A := by
    intro b hb o ho
    have ho0 : o = 0 := by
      have h10 : (2 : Nat) ^ 0 = 1 := pow_zero 2
      omega
    subst ho0
    simp
  have hmain := invLoop_inv hq hq62 ((psiInv : ZMod q))
    (buildTable k q).get_from_inv_root_powers
    (buildTable k q).get_from_scaled_inv_root_powers A hxn hW (k - 1) 0 A (by omega)
    hA hinit
  rw [pow_zero, hk1, show (2 : Nat) ^ k - 2 ^ k + 1 = 1 from by omega] at hmain
  obtain ⟨hrng, hcng, hcur2⟩ := hmain
  rw [hcur2] at htbl
  have hiN : invDeg < q := (try_invert_spec h3).2
  have hiNp := (divide_uint128_lt hq hiN).1
  have hWfin : (buildTable k q).get_from_inv_root_powers (2 ^ k - 1) =
      psiInv ^ (2 ^ (k - 1)) % q := by
    have h := (table_inv_root_cursor h1 h2 h3 0 0 (by omega) (by norm_num)).1
    rw [show (2 : Nat) ^ k - 2 ^ (0 + 1) + 1 + 0 = 2 ^ k - 1 from by
        have h21 : (2 : Nat) ^ (0 + 1) = 2 := by norm_num
        have h2k : (2 : Nat) ^ 1 ≤ 2 ^ k := Nat.pow_le_pow_right (by norm_num) (by omega)
        have h22 : (2 : Nat) ^ 1 = 2 := by norm_num
        omega] at h
    rw [show (2 : Nat) ^ 0 + 0 = 1 from by norm_num, hrev1] at h
    exact h
  have hiNWlt : multiply_uint_uint_mod invDeg
      ((buildTable k q).get_from_inv_root_powers (2 ^ k - 1)) q < q := by
    unfold multiply_uint_uint_mod
    exact Nat.mod_lt _ (by omega)
  have hiNWp := (divide_uint128_lt hq hiNWlt).1
  have hiNWx : ((multiply_uint_uint_mod invDeg
        ((buildTable k q).get_from_inv_root_powers (2 ^ k - 1)) q : Nat) : ZMod q) =
      ((invDeg : Nat) : ZMod q) * ((psiInv : ZMod q)) ^ (2 ^ (k - 1)) := by
    unfold multiply_uint_uint_mod
    rw [ZMod.natCast_mod, Nat.cast_mul, hWfin, root_cast_pow]
  have hfin := invFinal_inv hq hq62 ((psiInv : ZMod q)) A invDeg
    (divide_uint128_uint64_lo invDeg q)
    (multiply_uint_uint_mod invDeg
      ((buildTable k q).get_from_inv_root_powers (2 ^ k - 1)) q)
    (divide_uint128_uint64_lo
      (multiply_uint_uint_mod invDeg
        ((buildTable k q).get_from_inv_root_powers (2 ^ k - 1)) q) q)
    hk hxn hiN hiNp hiNWlt hiNWp hiNWx
    (invLoop q (buildTable k q).get_from_inv_root_powers
      (buildTable k q).get_from_scaled_inv_root_powers
      (k - 1) (2 ^ (k - 1)) 1 1 A).1 hrng hcng
  rw [htbl]
  exact hfin


/-! ## Lemmas: the round trip -/

/-- Bit reversal permutes `range (2^k)`, so sums may be reindexed by it. -/
theorem sum_reverseBits {M : Type*} [AddCommMonoid M] (k : Nat) (F : Nat → M) :
    ∑ p ∈ Finset.range (2 ^ k), F (reverseBits p k) = ∑ p ∈ Finset.range (2 ^ k), F p := by
  refine Finset.sum_nbij' (fun p => reverseBits p k) (fun p => reverseBits p k)
    ?_ ?_ ?_ ?_ ?_
  · intro a _
    exact Finset.mem_range.mpr (reverseBits_lt k a)
  · intro a _
    exact Finset.mem_range.mpr (reverseBits_lt k a)
  · intro a ha
    exact reverseBits_reverseBits k a (Finset.mem_range.mp ha)
  · intro a ha
    exact reverseBits_reverseBits k a (Finset.mem_range.mp ha)
  · intro a _
    rfl

/-- Orthogonality of the odd root powers: summing `z^((2p+1)r) · x^((2p+1)i)`
    over a full period gives `n` on the diagonal and `0` elsewhere. -/
theorem geom_orthogonality {q n : Nat} (hp : Nat.Prime q) (hn : 0 < n)
    (z x : ZMod q) (hzx : z * x = 1)
    (hz2n : z ^ (2 * n) = 1)
    (hprim : ∀ j, j < 2 * n → 0 < j → z ^ j ≠ 1)
    (r i : Nat) (hr : r < n) (hi : i < n) :
    ∑ p ∈ Finset.range n, z ^ ((2 * p + 1) * r) * x ^ ((2 * p + 1) * i) =
      if r = i then ((n : Nat) : ZMod q) else 0 := by
  haveI : Fact (Nat.Prime q) := ⟨hp⟩
  have hzne : z ≠ 0 := by
    intro hz0
    rw [hz0, zero_pow (by omega : 2 * n ≠ 0)] at hz2n
    exact zero_ne_one hz2n
  have hx2n : x ^ (2 * n) = 1 := by
    have h := congrArg (fun w => w ^ (2 * n)) hzx
    simp only [mul_pow, one_pow] at h
    rw [hz2n, one_mul] at h
    exact h
  have hterm : ∀ p : Nat, z ^ ((2 * p + 1) * r) * x ^ ((2 * p + 1) * i) =
      ((z ^ r * x ^ i) ^ 2) ^ p * (z ^ r * x ^ i) := by
    intro p
    rw [show (2 * p + 1) * r = r * (2 * p + 1) from by ring,
      show (2 * p + 1) * i = i * (2 * p + 1) from by ring,
      pow_mul, pow_mul, ← mul_pow, pow_succ, pow_mul]
  simp only [hterm]
  rw [← Finset.sum_mul]
  by_cases hri : r = i
  · subst hri
    rw [if_pos rfl]
    have hu : z ^ r * x ^ r = 1 := by rw [← mul_pow, hzx, one_pow]
    rw [hu]
    simp [Finset.sum_const, Finset.card_range]
  · rw [if_neg hri]
    have hexp2 : (z ^ r * x ^ i) ^ 2 = z ^ (2 * r) * x ^ (2 * i) := by
      rw [mul_pow, ← pow_mul, ← pow_mul, show r * 2 = 2 * r from by ring,
        show i * 2 = 2 * i from by ring]
    have hu2ne : (z ^ r * x ^ i) ^ 2 ≠ 1 := by
      intro hcontra
      rw [hexp2] at hcontra
      have hxz : x * z = 1 := by rw [mul_comm]; exact hzx
      have hz2i : x ^ (2 * i) * z ^ (2 * i) = 1 := by rw [← mul_pow, hxz, one_pow]
      have heq : z ^ (2 * r) = z ^ (2 * i) := by
        calc z ^ (2 * r) = z ^ (2 * r) * (x ^ (2 * i) * z ^ (2 * i)) := by
              rw [hz2i, mul_one]
          _ = (z ^ (2 * r) * x ^ (2 * i)) * z ^ (2 * i) := by ring
          _ = 1 * z ^ (2 * i) := by rw [hcontra]
          _ = z ^ (2 * i) := one_mul _
      have hzpow_ne : ∀ m : Nat, z ^ m ≠ 0 := fun m => pow_ne_zero m hzne
      rcases Nat.lt_or_ge (2 * r) (2 * i) with hlt | hge
      · have hdiff : z ^ (2 * i - 2 * r) * z ^ (2 * r) = 1 * z ^ (2 * r) := by
          rw [← pow_add, show 2 * i - 2 * r + 2 * r = 2 * i from by omega, ← heq, one_mul]
        have hone := mul_right_cancel₀ (hzpow_ne (2 * r)) hdiff
        exact hprim (2 * i - 2 * r) (by omega) (by omega) hone
      · have hlt2 : 2 * i < 2 * r := by omega
        have hdiff : z ^ (2 * r - 2 * i) * z ^ (2 * i) = 1 * z ^ (2 * i) := by
          rw [← pow_add, show 2 * r - 2 * i + 2 * i = 2 * r from by omega, heq, one_mul]
        have hone := mul_right_cancel₀ (hzpow_ne (2 * i)) hdiff
        exact hprim (2 * r - 2 * i) (by omega) (by omega) hone
    have hu2n : ((z ^ r * x ^ i) ^ 2) ^ n = 1 := by
      rw [hexp2, mul_pow, ← pow_mul, ← pow_mul,
        show 2 * r * n = 2 * n * r from by ring,
        show 2 * i * n = 2 * n * i from by ring,
        pow_mul z (2 * n) r, hz2n, pow_mul x (2 * n) i, hx2n, one_pow, one_pow, one_mul]
    have hgeom := geom_sum_mul ((z ^ r * x ^ i) ^ 2) n
    rw [hu2n, sub_self] at hgeom
    have hsum0 : (∑ p ∈ Finset.range n, ((z ^ r * x ^ i) ^ 2) ^ p) = 0 := by
      rcases mul_eq_zero.mp hgeom with h | h
      · exact h
      · exact absurd (sub_eq_zero.mp h) hu2ne
    rw [hsum0, zero_mul]

/-- `reduce2q` brings a `[0, 4q)` buffer into `[0, 2q)` without changing any
    entry modulo `q`. -/
theorem reduce2q_spec {q N : Nat} (hq : 0 < q) (v : Nat → Nat)
    (hv : inRange N (4 * q) v) :
    inRange N (2 * q) (reduce2q q v) ∧
    ∀ p, ((reduce2q q v p : Nat) : ZMod q) = ((v p : Nat) : ZMod q) := by
  constructor
  · intro p hp
    simp only [reduce2q]
    have := hv p hp
    by_cases h : 2 * q ≤ v p
    · rw [if_pos h]
      omega
    · rw [if_neg h]
      omega
  · intro p
    simp only [reduce2q]
    by_cases h : 2 * q ≤ v p
    · rw [if_pos h, Nat.cast_sub h]
      have h2q : ((2 * q : Nat) : ZMod q) = 0 := by
        push_cast
        rw [ZMod.natCast_self]
        ring
      rw [h2q, sub_zero]
    · rw [if_neg h]

/-- Casting a successful modular-inverse certificate into `ZMod q`. -/
theorem inv_cast_mul {q a b : Nat} (h : try_invert_uint_mod a q = some b) :
    ((a : ZMod q)) * ((b : ZMod q)) = 1 := by
  obtain ⟨hmod, _⟩ := try_invert_spec h
  have hcast : ((a * b % q : Nat) : ZMod q) = ((1 : Nat) : ZMod q) := by rw [hmod]
  rw [ZMod.natCast_mod, Nat.cast_mul, Nat.cast_one] at hcast
  exact hcast

/-- The full round trip: forward transform, entrywise reduction into
    `[0, 2q)`, then the inverse transform, returns every coefficient of the
    input modulo `q`, with all outputs in `[0, 2q)`. -/
theorem roundtrip_spec {k q psi psiInv invDeg : Nat}
    (hk : 1 ≤ k) (hp : Nat.Prime q) (hq62 : q < 2 ^ 62)
    (h1 : try_minimal_primitive_root (2 * 2 ^ k) q = some psi)
    (h2 : try_invert_uint_mod psi q = some psiInv)
    (h3 : try_invert_uint_mod (2 ^ k) q = some invDeg)
    (a : Nat → Nat) (ha : inRange (2 ^ k) q a) :
    inRange (2 ^ k) (2 * q)
      (inverse_ntt_negacyclic_harvey_lazy (buildTable k q)
        (reduce2q q (ntt_negacyclic_harvey_lazy (buildTable k q) a))) ∧
    ∀ p, p < 2 ^ k →
      ((inverse_ntt_negacyclic_harvey_lazy (buildTable k q)
          (reduce2q q (ntt_negacyclic_harvey_lazy (buildTable k q) a)) p : Nat) : ZMod q) =
        ((a p : Nat) : ZMod q) := by
  have hq : 0 < q := hp.pos
  have hq1 : 1 < q := hp.one_lt
  have hn : (0 : Nat) < 2 ^ k := Nat.pos_pow_of_pos k (by norm_num)
  obtain ⟨hfr, hfc⟩ := forward_ntt_spec hk hp hq62 h1 h2 h3 a ha
  obtain ⟨hrr, hrc⟩ := reduce2q_spec hq _ hfr
  obtain ⟨hir, hic⟩ := inverse_ntt_spec hk hp hq62 h1 h2 h3 _ hrr
  refine ⟨hir, ?_⟩
  intro p hpp
  rw [hic p hpp]
  have hprod := inv_cast_mul h2
  have hinvn := inv_cast_mul h3
  obtain ⟨hz2n, hprim⟩ := root_cast_prim h1
  have hAj : ∀ j, j < 2 ^ k →
      ((reduce2q q (ntt_negacyclic_harvey_lazy (buildTable k q) a) j : Nat) : ZMod q) =
        ∑ r ∈ Finset.range (2 ^ k),
          (a r : ZMod q) * ((psi : ZMod q)) ^ ((2 * reverseBits j k + 1) * r) := by
    intro j hj
    rw [hrc j, hfc j hj]
  calc ((invDeg : Nat) : ZMod q) *
        ∑ j ∈ Finset.range (2 ^ k),
          ((reduce2q q (ntt_negacyclic_harvey_lazy (buildTable k q) a) j : Nat) : ZMod q) *
            ((psiInv : ZMod q)) ^ ((2 * reverseBits j k + 1) * p)
      = ((invDeg : Nat) : ZMod q) *
        ∑ j ∈ Finset.range (2 ^ k), ∑ r ∈ Finset.range (2 ^ k),
          ((a r : ZMod q) * ((psi : ZMod q)) ^ ((2 * reverseBits j k + 1) * r)) *
            ((psiInv : ZMod q)) ^ ((2 * reverseBits j k + 1) * p) := by
        congr 1
        refine Finset.sum_congr rfl ?_
        intro j hj
        rw [hAj j (Finset.mem_range.mp hj), Finset.sum_mul]
    _ = ((invDeg : Nat) : ZMod q) *
        ∑ r ∈ Finset.range (2 ^ k), ∑ j ∈ Finset.range (2 ^ k),
          ((a r : ZMod q) * ((psi : ZMod q)) ^ ((2 * reverseBits j k + 1) * r)) *
            ((psiInv : ZMod q)) ^ ((2 * reverseBits j k + 1) * p) := by
        rw [Finset.sum_comm]
    _ = ((invDeg : Nat) : ZMod q) *
        ∑ r ∈ Finset.range (2 ^ k),
          (a r : ZMod q) * (if r = p then ((2 ^ k : Nat) : ZMod q) else 0) := by
        congr 1
        refine Finset.sum_congr rfl ?_
        intro r hr
        have hrlt := Finset.mem_range.mp hr
        have hstep : ∑ j ∈ Finset.range (2 ^ k),
            ((a r : ZMod q) * ((psi : ZMod q)) ^ ((2 * reverseBits j k + 1) * r)) *
              ((psiInv : ZMod q)) ^ ((2 * reverseBits j k + 1) * p) =
            (a r : ZMod q) * ∑ j ∈ Finset.range (2 ^ k),
              ((psi : ZMod q)) ^ ((2 * reverseBits j k + 1) * r) *
                ((psiInv : ZMod q)) ^ ((2 * reverseBits j k + 1) * p) := by
          rw [Finset.mul_sum]
          refine Finset.sum_congr rfl ?_
          intro j _
          ring
        rw [hstep]
        congr 1
        exact (sum_reverseBits k
            (fun w => ((psi : ZMod q)) ^ ((2 * w + 1) * r) *
              ((psiInv : ZMod q)) ^ ((2 * w + 1) * p))).trans
          (geom_orthogonality hp hn ((psi : ZMod q)) ((psiInv : ZMod q)) hprod hz2n hprim
            r p hrlt hpp)
    _ = ((invDeg : Nat) : ZMod q) * ((a p : ZMod q) * ((2 ^ k : Nat) : ZMod q)) := by
        congr 1
        have hsingle : (∑ r ∈ Finset.range (2 ^ k),
              (a r : ZMod q) * (if r = p then ((2 ^ k : Nat) : ZMod q) else 0)) =
            (a p : ZMod q) * (if p = p then ((2 ^ k : Nat) : ZMod q) else 0) :=
          Finset.sum_eq_single p (fun b _ hbne => by rw [if_neg hbne, mul_zero])
            (fun hnp => absurd (Finset.mem_range.mpr hpp) hnp)
        rw [hsingle, if_pos rfl]
    _ = ((a p : Nat) : ZMod q) := by
        have hcast : ((2 ^ k : Nat) : ZMod q) * ((invDeg : Nat) : ZMod q) = 1 := hinvn
        linear_combination ((a p : Nat) : ZMod q) * hcast


/-! ## Lemmas: the unrolled passes equal the plain ones -/

/-- A forward stage with power-of-two `t` equals the never-unrolled stage. -/
theorem fwdStage_eq_refStage (q : Nat) (W Wp : Nat → Nat) (m e : Nat) (v : Nat → Nat) :
    fwdStage q W Wp m (2 ^ e) v = fwdStageRef q W Wp m (2 ^ e) v := by
  unfold fwdStage fwdStageRef
  have hinner : (fun r j1 => fwdInner q (W r) (Wp r) (2 ^ e) j1) =
      (fun r j1 => fwdInnerRef q (W r) (Wp r) (2 ^ e) j1) := by
    funext r j1 v'
    exact fwdInner_eq_ref q (W r) (Wp r) e j1 v'
  rw [hinner]

/-- An inverse stage with power-of-two `t` equals the never-unrolled stage. -/
theorem invStage_eq_refStage (q : Nat) (W Wp : Nat → Nat) (c m e : Nat) (v : Nat → Nat) :
    invStage q W Wp c m (2 ^ e) v = invStageRef q W Wp c m (2 ^ e) v := by
  unfold invStage invStageRef
  have hinner : (fun r j1 => invInner q (W r) (Wp r) (2 ^ e) j1) =
      (fun r j1 => invInnerRef q (W r) (Wp r) (2 ^ e) j1) := by
    funext r j1 v'
    exact invInner_eq_ref q (W r) (Wp r) e j1 v'
  rw [hinner]

/-- The forward outer loop equals its never-unrolled form while enough fuel
    keeps `t` a power of two. -/
theorem fwdLoop_eq_ref (q : Nat) (W Wp : Nat → Nat) :
    ∀ f e m v, f ≤ e + 1 →
      fwdLoop q W Wp f m (2 ^ e) v = fwdLoopRef q W Wp f m (2 ^ e) v := by
  intro f
  induction f with
  | zero =>
    intro e m v _
    rfl
  | succ f ih =>
    intro e m v hf
    show fwdLoop q W Wp f (2 * m) (2 ^ e / 2) (fwdStage q W Wp m (2 ^ e) v) =
      fwdLoopRef q W Wp f (2 * m) (2 ^ e / 2) (fwdStageRef q W Wp m (2 ^ e) v)
    rw [← fwdStage_eq_refStage]
    rcases Nat.eq_zero_or_pos e with he | he
    · subst he
      have hf0 : f = 0 := by omega
      subst hf0
      rfl
    · obtain ⟨e', rfl⟩ : ∃ e', e = e' + 1 := ⟨e - 1, by omega⟩
      have hdiv : 2 ^ (e' + 1) / 2 = 2 ^ e' := by
        rw [pow_succ]
        exact Nat.mul_div_cancel _ (by norm_num)
      rw [hdiv]
      exact ih e' (2 * m) _ (by omega)

/-- The inverse outer loop equals its never-unrolled form for power-of-two
    `t`; `t` only doubles, so no fuel bound is needed. -/
theorem invLoop_eq_ref (q : Nat) (W Wp : Nat → Nat) :
    ∀ f e m c v, invLoop q W Wp f m (2 ^ e) c v = invLoopRef q W Wp f m (2 ^ e) c v := by
  intro f
  induction f with
  | zero =>
    intro e m c v
    rfl
  | succ f ih =>
    intro e m c v
    show invLoop q W Wp f (m / 2) (2 * 2 ^ e) (c + m) (invStage q W Wp c m (2 ^ e) v) =
      invLoopRef q W Wp f (m / 2) (2 * 2 ^ e) (c + m) (invStageRef q W Wp c m (2 ^ e) v)
    rw [← invStage_eq_refStage]
    have h2 : 2 * 2 ^ e = 2 ^ (e + 1) := by
      rw [pow_succ]
      ring
    rw [h2]
    exact ih (e + 1) (m / 2) (c + m) _

/-- The forward pass as shipped (fourfold unrolling for `t ≥ 4`) equals the
    never-unrolled forward pass on every table and operand. -/
theorem ntt_eq_ref (tables : SmallNTTTables) (operand : Nat → Nat) :
    ntt_negacyclic_harvey_lazy tables operand =
      ntt_negacyclic_harvey_lazy_ref tables operand := by
  unfold ntt_negacyclic_harvey_lazy ntt_negacyclic_harvey_lazy_ref
  rcases Nat.eq_zero_or_pos tables.coeff_count_power with hk | hk
  · rw [hk]
    rfl
  · obtain ⟨k', hk'⟩ : ∃ k', tables.coeff_count_power = k' + 1 :=
      ⟨tables.coeff_count_power - 1, by omega⟩
    rw [hk']
    have hdiv : 2 ^ (k' + 1) / 2 = 2 ^ k' := by
      rw [pow_succ]
      exact Nat.mul_div_cancel _ (by norm_num)
    rw [hdiv]
    exact fwdLoop_eq_ref _ _ _ (k' + 1) k' 1 operand (by omega)

/-- The inverse pass as shipped equals the never-unrolled inverse pass on
    every table and operand. -/
theorem inverse_ntt_eq_ref (tables : SmallNTTTables) (operand : Nat → Nat) :
    inverse_ntt_negacyclic_harvey_lazy tables operand =
      inverse_ntt_negacyclic_harvey_lazy_ref tables operand := by
  simp only [inverse_ntt_negacyclic_harvey_lazy, inverse_ntt_negacyclic_harvey_lazy_ref]
  have hloop := invLoop_eq_ref tables.modulus tables.get_from_inv_root_powers
    tables.get_from_scaled_inv_root_powers (tables.coeff_count_power - 1) 0
    (2 ^ tables.coeff_count_power / 2) 1 operand
  rw [pow_zero] at hloop
  rw [hloop]


/-! ## The claims -/

/-- C1, as stated, is false: running the forward pass on the zero buffer
    (`n = 2`, `q = 17`, entries in `[0, q)`), reducing into `[0, 2q)` and
    running the inverse pass yields `17` at position 1, not the original `0`:
    the round trip is not entry-wise exact. -/
theorem C1_counterexample :
    ¬ (∀ p, p < 2 ^ 1 →
        inverse_ntt_negacyclic_harvey_lazy (buildTable 1 17)
          (reduce2q 17 (ntt_negacyclic_harvey_lazy (buildTable 1 17) (fun _ => (0 : Nat)))) p
          = 0) := by
  intro h
  exact absurd (h 1 (by norm_num)) (by decide)

/-- C1 (amended): for a prime modulus below `2^62` with a successful table
    build, the round trip forward → reduce into `[0, 2q)` → inverse returns
    the input buffer modulo `q`, every output entry lying in `[0, 2q)`;
    entry-wise equality holds only up to a possible additive `q`. -/
theorem C1_roundtrip_mod_q {k q psi psiInv invDeg : Nat}
    (hk : 1 ≤ k) (hp : Nat.Prime q) (hq62 : q < 2 ^ 62)
    (h1 : try_minimal_primitive_root (2 * 2 ^ k) q = some psi)
    (h2 : try_invert_uint_mod psi q = some psiInv)
    (h3 : try_invert_uint_mod (2 ^ k) q = some invDeg)
    (a : Nat → Nat) (ha : inRange (2 ^ k) q a) :
    inRange (2 ^ k) (2 * q)
      (inverse_ntt_negacyclic_harvey_lazy (buildTable k q)
        (reduce2q q (ntt_negacyclic_harvey_lazy (buildTable k q) a))) ∧
    ∀ p, p < 2 ^ k →
      ((inverse_ntt_negacyclic_harvey_lazy (buildTable k q)
          (reduce2q q (ntt_negacyclic_harvey_lazy (buildTable k q) a)) p : Nat) : ZMod q) =
        ((a p : Nat) : ZMod q) :=
  roundtrip_spec hk hp hq62 h1 h2 h3 a ha

/-- C1 witness: the amended round-trip law at `n = 2`, `q = 17` on the zero
    buffer. -/
theorem C1_witness :
    inRange (2 ^ 1) (2 * 17)
      (inverse_ntt_negacyclic_harvey_lazy (buildTable 1 17)
        (reduce2q 17 (ntt_negacyclic_harvey_lazy (buildTable 1 17) (fun _ => 0)))) ∧
    ∀ p, p < 2 ^ 1 →
      ((inverse_ntt_negacyclic_harvey_lazy (buildTable 1 17)
          (reduce2q 17 (ntt_negacyclic_harvey_lazy (buildTable 1 17) (fun _ => 0))) p
          : Nat) : ZMod 17) = ((0 : Nat) : ZMod 17) :=
  C1_roundtrip_mod_q (by norm_num) (by norm_num) (by norm_num)
    (show try_minimal_primitive_root (2 * 2 ^ 1) 17 = some 4 from by decide)
    (show try_invert_uint_mod 4 17 = some 13 from by decide)
    (show try_invert_uint_mod (2 ^ 1) 17 = some 9 from by decide)
    (fun _ => 0) (fun p hp => by norm_num)

/-- C2, as stated, is false: with `n = 2`, `q = 17` and input `[8, 9]`
    (entries in `[0, q)`), the inverse pass puts `17 ≥ q` at position 0, so
    the output is not always in `[0, q)`. -/
theorem C2_counterexample :
    ¬ (∀ p, p < 2 ^ 1 →
        inverse_ntt_negacyclic_harvey_lazy (buildTable 1 17)
          (fun j => if j = 0 then 8 else 9) p < 17) := by
  intro h
  exact absurd (h 0 (by norm_num)) (by decide)

/-- C2 (amended): on a successfully built table with prime modulus, the
    inverse pass takes any buffer with entries in `[0, 2q)` (hence also any
    in `[0, q)`) to entries in `[0, 2q)` — not `[0, q)` — and the result is
    the inverse negacyclic NTT scaled by `n⁻¹ mod q`. -/
theorem C2_inverse_range_transform {k q psi psiInv invDeg : Nat}
    (hk : 1 ≤ k) (hp : Nat.Prime q) (hq62 : q < 2 ^ 62)
    (h1 : try_minimal_primitive_root (2 * 2 ^ k) q = some psi)
    (h2 : try_invert_uint_mod psi q = some psiInv)
    (h3 : try_invert_uint_mod (2 ^ k) q = some invDeg)
    (A : Nat → Nat) (hA : inRange (2 ^ k) (2 * q) A) :
    inRange (2 ^ k) (2 * q) (inverse_ntt_negacyclic_harvey_lazy (buildTable k q) A) ∧
    ∀ p, p < 2 ^ k →
      ((inverse_ntt_negacyclic_harvey_lazy (buildTable k q) A p : Nat) : ZMod q) =
        ((invDeg : Nat) : ZMod q) *
          invNttSum q (2 ^ k) k A ((psiInv : ZMod q)) p := by
  obtain ⟨hr, hc⟩ := inverse_ntt_spec hk hp hq62 h1 h2 h3 A hA
  refine ⟨hr, ?_⟩
  intro p hp'
  rw [hc p hp']
  simp only [invNttSum]

/-- C2 witness: the amended inverse contract at `n = 2`, `q = 17` on the
    constant buffer `9`. -/
theorem C2_witness :
    inRange (2 ^ 1) (2 * 17)
      (inverse_ntt_negacyclic_harvey_lazy (buildTable 1 17) (fun _ => 9)) ∧
    ∀ p, p < 2 ^ 1 →
      ((inverse_ntt_negacyclic_harvey_lazy (buildTable 1 17) (fun _ => 9) p : Nat)
        : ZMod 17) =
        ((9 : Nat) : ZMod 17) *
          invNttSum 17 (2 ^ 1) 1 (fun _ => 9) ((13 : Nat) : ZMod 17) p :=
  C2_inverse_range_transform (by norm_num) (by norm_num) (by norm_num)
    (show try_minimal_primitive_root (2 * 2 ^ 1) 17 = some 4 from by decide)
    (show try_invert_uint_mod 4 17 = some 13 from by decide)
    (show try_invert_uint_mod (2 ^ 1) 17 = some 9 from by decide)
    (fun _ => 9) (fun p hp => by norm_num)

/-- C3: on a successfully built table with prime modulus below `2^62`, the
    forward pass keeps every entry below `4q`: for inputs in `[0, q)` the
    returned buffer lies entirely in `[0, 4q)`. -/
theorem C3_forward_range {k q psi psiInv invDeg : Nat}
    (hk : 1 ≤ k) (hp : Nat.Prime q) (hq62 : q < 2 ^ 62)
    (h1 : try_minimal_primitive_root (2 * 2 ^ k) q = some psi)
    (h2 : try_invert_uint_mod psi q = some psiInv)
    (h3 : try_invert_uint_mod (2 ^ k) q = some invDeg)
    (a : Nat → Nat) (ha : inRange (2 ^ k) q a) :
    inRange (2 ^ k) (4 * q) (ntt_negacyclic_harvey_lazy (buildTable k q) a) :=
  (forward_ntt_spec hk hp hq62 h1 h2 h3 a ha).1

/-- C3 witness: the forward range bound at `n = 2`, `q = 17` on the constant
    buffer `1`. -/
theorem C3_witness :
    inRange (2 ^ 1) (4 * 17)
      (ntt_negacyclic_harvey_lazy (buildTable 1 17) (fun _ => 1)) :=
  C3_forward_range (by norm_num) (by norm_num) (by norm_num)
    (show try_minimal_primitive_root (2 * 2 ^ 1) 17 = some 4 from by decide)
    (show try_invert_uint_mod 4 17 = some 13 from by decide)
    (show try_invert_uint_mod (2 ^ 1) 17 = some 9 from by decide)
    (fun _ => 1) (fun p hp => by norm_num)

/-- C4: after a successful build with root `ψ`, the pointer-chained
    population gives `root_powers[bit_reverse(i, k)] = ψ^i mod q` for every
    `i < n` (so slot `0` holds `1` and slot `bit_reverse(1, k)` holds `ψ`). -/
theorem C4_root_powers_bitrev {k q psi psiInv invDeg : Nat}
    (h1 : try_minimal_primitive_root (2 * 2 ^ k) q = some psi)
    (h2 : try_invert_uint_mod psi q = some psiInv)
    (h3 : try_invert_uint_mod (2 ^ k) q = some invDeg) :
    ∀ i, i < 2 ^ k →
      (buildTable k q).get_from_root_powers (reverseBits i k) = psi ^ i % q := by
  intro i hi
  have h := (table_root_powers h1 h2 h3 (reverseBits i k) (reverseBits_lt k i)).1
  rw [reverseBits_reverseBits k i hi] at h
  exact h

/-- C4 witness: at `n = 2`, `q = 17` the slot `bit_reverse(1, 1)` holds
    `ψ^1 mod q`. -/
theorem C4_witness :
    (buildTable 1 17).get_from_root_powers (reverseBits 1 1) = 4 ^ 1 % 17 :=
  C4_root_powers_bitrev
    (show try_minimal_primitive_root (2 * 2 ^ 1) 17 = some 4 from by decide)
    (show try_invert_uint_mod 4 17 = some 13 from by decide)
    (show try_invert_uint_mod (2 ^ 1) 17 = some 9 from by decide)
    1 (by norm_num)

/-- C5: after a successful build, position `2^k - 2^(s+1) + 1 + i` of the
    stored inverse arrays (the concatenated slices for `m = n/2, …, 1`,
    offset 0 unused) holds entry `2^s + i` of the raw bit-reversed arrays,
    both plain and scaled, while the two `_div_two` arrays keep the raw
    bit-reversed order unreordered. -/
theorem C5_inv_reordering {k q psi psiInv invDeg : Nat}
    (h1 : try_minimal_primitive_root (2 * 2 ^ k) q = some psi)
    (h2 : try_invert_uint_mod psi q = some psiInv)
    (h3 : try_invert_uint_mod (2 ^ k) q = some invDeg) :
    (∀ s i, s < k → i < 2 ^ s →
      (buildTable k q).get_from_inv_root_powers (2 ^ k - 2 ^ (s + 1) + 1 + i) =
        (ntt_powers_of_primitive_root q psiInv k).getD (2 ^ s + i) 0 ∧
      (buildTable k q).get_from_scaled_inv_root_powers (2 ^ k - 2 ^ (s + 1) + 1 + i) =
        (ntt_scale_powers_of_primitive_root q
          (ntt_powers_of_primitive_root q psiInv k)).getD (2 ^ s + i) 0) ∧
    (buildTable k q).inv_root_powers_div_two =
      (ntt_powers_of_primitive_root q psiInv k).map (fun x => div2_uint_mod x q) ∧
    (buildTable k q).scaled_inv_root_powers_div_two =
      ntt_scale_powers_of_primitive_root q
        ((ntt_powers_of_primitive_root q psiInv k).map (fun x => div2_uint_mod x q)) := by
  rw [buildTable_eq h1 h2 h3]
  refine ⟨?_, rfl, rfl⟩
  intro s i hs hi
  unfold SmallNTTTables.get_from_inv_root_powers
    SmallNTTTables.get_from_scaled_inv_root_powers
  exact ⟨reorder_inv_getD _ k s i hs hi, reorder_inv_getD _ k s i hs hi⟩

/-- C5 witness: the reordering relation at `n = 2`, `q = 17`, slice `s = 0`,
    offset `i = 0`. -/
theorem C5_witness :
    (buildTable 1 17).get_from_inv_root_powers (2 ^ 1 - 2 ^ (0 + 1) + 1 + 0) =
      (ntt_powers_of_primitive_root 17 13 1).getD (2 ^ 0 + 0) 0 ∧
    (buildTable 1 17).get_from_scaled_inv_root_powers (2 ^ 1 - 2 ^ (0 + 1) + 1 + 0) =
      (ntt_scale_powers_of_primitive_root 17
        (ntt_powers_of_primitive_root 17 13 1)).getD (2 ^ 0 + 0) 0 :=
  (C5_inv_reordering
    (show try_minimal_primitive_root (2 * 2 ^ 1) 17 = some 4 from by decide)
    (show try_invert_uint_mod 4 17 = some 13 from by decide)
    (show try_invert_uint_mod (2 ^ 1) 17 = some 9 from by decide)).1
    0 0 (by norm_num) (by norm_num)

/-- C6: after a successful build, every scaled root power is exactly the
    floor of `w · 2^64 / q`: for each index `r < n`,
    `scaled[r]·q ≤ root_powers[r]·2^64 < (scaled[r]+1)·q`. -/
theorem C6_scaled_floor {k q psi psiInv invDeg : Nat}
    (h1 : try_minimal_primitive_root (2 * 2 ^ k) q = some psi)
    (h2 : try_invert_uint_mod psi q = some psiInv)
    (h3 : try_invert_uint_mod (2 ^ k) q = some invDeg) :
    ∀ r, r < 2 ^ k →
      (buildTable k q).get_from_scaled_root_powers r * q ≤
        (buildTable k q).get_from_root_powers r * 2 ^ 64 ∧
      (buildTable k q).get_from_root_powers r * 2 ^ 64 <
        ((buildTable k q).get_from_scaled_root_powers r + 1) * q := by
  intro r hr
  have hq1 : 1 < q := one_lt_q_of_root h1
  obtain ⟨hv, hsv⟩ := table_root_powers h1 h2 h3 r hr
  rw [hsv, hv]
  constructor
  · exact Nat.div_mul_le_self _ q
  · exact (Nat.div_lt_iff_lt_mul (by omega : 0 < q)).mp (Nat.lt_succ_self _)

/-- C6 witness: the floor bracketing at `n = 2`, `q = 17`, index `1`. -/
theorem C6_witness :
    (buildTable 1 17).get_from_scaled_root_powers 1 * 17 ≤
      (buildTable 1 17).get_from_root_powers 1 * 2 ^ 64 ∧
    (buildTable 1 17).get_from_root_powers 1 * 2 ^ 64 <
      ((buildTable 1 17).get_from_scaled_root_powers 1 + 1) * 17 :=
  C6_scaled_floor
    (show try_minimal_primitive_root (2 * 2 ^ 1) 17 = some 4 from by decide)
    (show try_invert_uint_mod 4 17 = some 13 from by decide)
    (show try_invert_uint_mod (2 ^ 1) 17 = some 9 from by decide)
    1 (by norm_num)

/-- C7: whenever construction does not set the initialized flag, the table
    is exactly the full reset state, with no partial population; in
    particular `n = 4, q = 15` (composite) fails and resets. -/
theorem C7_failure_resets :
    (∀ k q, (buildTable k q).is_initialized = false → buildTable k q = resetTables) ∧
    (buildTable 2 15).is_initialized = false ∧ buildTable 2 15 = resetTables := by
  refine ⟨fun k q h => buildTable_not_init h, by decide, by decide⟩

/-- C7 witness: the failure law applied to `n = 4, q = 15`. -/
theorem C7_witness : buildTable 2 15 = resetTables :=
  C7_failure_resets.1 2 15 (by decide)

/-- C8: for prime `q < 2^62`, a root `W < q` with Shoup pre-multiplier
    `W' = ⌊W·2^64/q⌋` and any `Y < 2q`, the wrapping 64-bit computation
    `W·Y - hi64(W'·Y)·q` lies in `[0, 2q)` and equals `W·Y` modulo `q`. -/
theorem C8_harvey {q W Wp Y : Nat} (hp : Nat.Prime q) (hq62 : q < 2 ^ 62)
    (hW : W < q) (hWp : Wp = W * 2 ^ 64 / q) (hY : Y < 2 * q) :
    harveyMul q W Wp Y < 2 * q ∧
    ((harveyMul q W Wp Y : Nat) : ZMod q) = (W : ZMod q) * (Y : ZMod q) := by
  have hq : 0 < q := hp.pos
  have hY64 : Y ≤ 2 ^ 64 := by omega
  exact ⟨(harveyMul_spec hq hq62 hW hWp hY64).1, harveyMul_cast hq hq62 hW hWp hY64⟩

/-- C8 witness: the reduction at `q = 17`, `W = 4`, `Y = 20`. -/
theorem C8_witness :
    harveyMul 17 4 (4 * 2 ^ 64 / 17) 20 < 2 * 17 ∧
    ((harveyMul 17 4 (4 * 2 ^ 64 / 17) 20 : Nat) : ZMod 17) =
      ((4 : Nat) : ZMod 17) * ((20 : Nat) : ZMod 17) :=
  C8_harvey (by norm_num) (by norm_num) (by norm_num) rfl (by norm_num)

/-- C9: the fourfold unrolling taken when `t ≥ 4` is observationally
    equivalent to the plain inner loops: on every table and operand both the
    forward and the inverse pass equal their never-unrolled forms. -/
theorem C9_unrolling_equiv (tables : SmallNTTTables) (operand : Nat → Nat) :
    ntt_negacyclic_harvey_lazy tables operand =
      ntt_negacyclic_harvey_lazy_ref tables operand ∧
    inverse_ntt_negacyclic_harvey_lazy tables operand =
      inverse_ntt_negacyclic_harvey_lazy_ref tables operand :=
  ⟨ntt_eq_ref tables operand, inverse_ntt_eq_ref tables operand⟩

/-- C10: the forward transform evaluates the input polynomial at the odd
    powers of `ψ` in bit-reversed output order: output `j` equals
    `a(ψ^(2·bit_reverse(j,k)+1))` modulo `q`. -/
theorem C10_forward_evaluates {k q psi psiInv invDeg : Nat}
    (hk : 1 ≤ k) (hp : Nat.Prime q) (hq62 : q < 2 ^ 62)
    (h1 : try_minimal_primitive_root (2 * 2 ^ k) q = some psi)
    (h2 : try_invert_uint_mod psi q = some psiInv)
    (h3 : try_invert_uint_mod (2 ^ k) q = some invDeg)
    (a : Nat → Nat) (ha : inRange (2 ^ k) q a) :
    ∀ j, j < 2 ^ k →
      ((ntt_negacyclic_harvey_lazy (buildTable k q) a j : Nat) : ZMod q) =
        polyEval q (2 ^ k) a (((psi : ZMod q)) ^ (2 * reverseBits j k + 1)) := by
  intro j hj
  rw [(forward_ntt_spec hk hp hq62 h1 h2 h3 a ha).2 j hj]
  simp only [polyEval]
  refine Finset.sum_congr rfl ?_
  intro r _
  rw [pow_mul]

/-- C10 witness: the evaluation law at `n = 2`, `q = 17`, output 0, on the
    constant buffer `1`. -/
theorem C10_witness :
    ((ntt_negacyclic_harvey_lazy (buildTable 1 17) (fun _ => 1) 0 : Nat) : ZMod 17) =
      polyEval 17 (2 ^ 1) (fun _ => 1) (((4 : Nat) : ZMod 17) ^ (2 * reverseBits 0 1 + 1)) :=
  C10_forward_evaluates (by norm_num) (by norm_num) (by norm_num)
    (show try_minimal_primitive_root (2 * 2 ^ 1) 17 = some 4 from by decide)
    (show try_invert_uint_mod 4 17 = some 13 from by decide)
    (show try_invert_uint_mod (2 ^ 1) 17 = some 9 from by decide)
    (fun _ => 1) (fun p hp => by norm_num) 0 (by norm_num)

end SealNTT
